import Mathlib

/-!
# simple-mps: a polled driver for a memory-mapped UART

A shallow embedding of `simple.c`.  The register block `uart0` is volatile
memory owned by the peripheral, so every access of the driver is a call into a
`Device`: a read returns the word the hardware presents and the next hardware
state, a write hands a word to the hardware.  The driver functions thread a
`World` (hardware state plus the log of register accesses made so far) and
a fuel counter that bounds the number of poll iterations and of `uart_putc`
activations; a run that exhausts its fuel is reported as `Outcome.spinning`
together with everything it did up to that point.

C leaves the signedness of plain `char` to the implementation.  The embedding
takes it as the parameter `charSigned`; a `char` is represented by its integer
value, and the conversions of the source (`uint8_t` to `char` at the call in
`uart_getc`, `char` to `uint32_t` at the store to `uart0.data`, `char` to
`uint8_t` to `int` in the return of `uart_putc`) are the functions `toChar`,
`toU32` and `toU8`.
-/

namespace SimpleMps

/-! ## Register block -/

/-- The five members of `struct uart`, in declaration order. -/
inductive Reg where
  | data
  | state
  | control
  | isr
  | bauddiv
  deriving DecidableEq, Repr

/-- One volatile access to a member of `uart0` and the word transferred. -/
inductive Access where
  | read (r : Reg) (v : Nat)
  | write (r : Reg) (v : Nat)
  deriving DecidableEq, Repr

/-- Bit index `UART_STATE_TX_BF`. -/
def UART_STATE_TX_BF : Nat := 0
/-- Bit index `UART_STATE_RX_BF`. -/
def UART_STATE_RX_BF : Nat := 1
/-- Bit index `UART_STATE_TX_B_OV`. -/
def UART_STATE_TX_B_OV : Nat := 2
/-- Bit index `UART_STATE_RX_B_OV`. -/
def UART_STATE_RX_B_OV : Nat := 3

/-- Bit index `UART_CONTROL_TX_EN`. -/
def UART_CONTROL_TX_EN : Nat := 0
/-- Bit index `UART_CONTROL_RX_EN`. -/
def UART_CONTROL_RX_EN : Nat := 1
/-- Bit index `UART_CONTROL_TX_IN_EN`. -/
def UART_CONTROL_TX_IN_EN : Nat := 2
/-- Bit index `UART_CONTROL_RX_IN_EN`. -/
def UART_CONTROL_RX_IN_EN : Nat := 3
/-- Bit index `UART_CONTROL_TX_OV_EN`. -/
def UART_CONTROL_TX_OV_EN : Nat := 4
/-- Bit index `UART_CONTROL_RX_OV_EN`. -/
def UART_CONTROL_RX_OV_EN : Nat := 5
/-- Bit index `UART_CONTROL_HS_TM_TX`. -/
def UART_CONTROL_HS_TM_TX : Nat := 6

/-- The macro `CLOCK`. -/
def CLOCK : Int := 25000000

/-- The character constant written `'\n'` in the source. -/
def LF : Int := 10
/-- The character constant written `'\r'` in the source. -/
def CR : Int := 13

/-! ## Integer conversions of the source -/

/-- Conversion of an integer to `uint32_t`. -/
def toU32 (x : Int) : Nat := (x % 4294967296).toNat

/-- Conversion of an integer to `uint8_t`. -/
def toU8 (x : Int) : Nat := (x % 256).toNat

/-- Conversion of an integer to plain `char`: reduction modulo 256 into
`0..255` when `char` is unsigned and into `-128..127` when it is signed. -/
def toChar (charSigned : Bool) (x : Int) : Int :=
  if charSigned then (x + 128) % 256 - 128 else x % 256

/-- The values a plain `char` object can hold. -/
def isChar (charSigned : Bool) (c : Int) : Prop :=
  if charSigned then -128 ≤ c ∧ c ≤ 127 else 0 ≤ c ∧ c ≤ 255

instance (charSigned : Bool) (c : Int) : Decidable (isChar charSigned c) := by
  unfold isChar
  exact inferInstance

/-! ## Hardware, worlds and outcomes -/

/-- The peripheral behind `uart0`, as a state machine over hardware states
`σ`.  Reading a register yields the word presented and the next hardware
state; writing a register yields the next hardware state. -/
structure Device (σ : Type) where
  read : σ → Reg → Nat × σ
  write : σ → Reg → Nat → σ

/-- Hardware state together with the chronological log of the register
accesses performed by the driver. -/
structure World (σ : Type) where
  dev : σ
  trace : List Access

/-- The word a volatile read of register `r` yields in world `w`. -/
def peek {σ : Type} (d : Device σ) (r : Reg) (w : World σ) : Nat :=
  (d.read w.dev r).1

/-- The world after a volatile read of register `r`. -/
def afterRead {σ : Type} (d : Device σ) (r : Reg) (w : World σ) : World σ :=
  ⟨(d.read w.dev r).2, w.trace ++ [Access.read r (peek d r w)]⟩

/-- The world after a volatile write of word `v` to register `r`. -/
def store {σ : Type} (d : Device σ) (r : Reg) (v : Nat) (w : World σ) : World σ :=
  ⟨d.write w.dev r v, w.trace ++ [Access.write r v]⟩

/-- Result of running a driver function with a fuel bound: either it
returned `a`, leaving `fuel` unused and the world `w`, or the fuel ran out
while it was still executing, having brought the world to `w`. -/
inductive Outcome (α σ : Type) where
  | done (a : α) (fuel : Nat) (w : World σ)
  | spinning (w : World σ)

/-- Sequencing of fuel-bounded computations. -/
def Outcome.bind {α β σ : Type} (o : Outcome α σ)
    (f : α → Nat → World σ → Outcome β σ) : Outcome β σ :=
  match o with
  | .done a n w => f a n w
  | .spinning w => .spinning w

/-- The world an outcome stopped in. -/
def Outcome.world {α σ : Type} : Outcome α σ → World σ
  | .done _ _ w => w
  | .spinning w => w

/-- The returned value, when the call returned. -/
def Outcome.value {α σ : Type} : Outcome α σ → Option α
  | .done a _ _ => some a
  | .spinning _ => none

/-! ## The driver -/

/-- The function `uart_init`: store `CLOCK / baud` to `bauddiv`, then the
receive and transmit enable bits to `control`.  Division by zero is
undefined in C and is reported as `none`. -/
def uart_init {σ : Type} (d : Device σ) (baud : Int) (w : World σ) : Option (World σ) :=
  if baud = 0 then none
  else
    some (store d Reg.control ((1 <<< UART_CONTROL_RX_EN) ||| (1 <<< UART_CONTROL_TX_EN))
      (store d Reg.bauddiv (toU32 (Int.tdiv CLOCK baud)) w))

/-- The loop `while ((uart0.state & (1 << UART_STATE_TX_BF)) != 0) ;` of
`uart_putc`.  Each iteration reads `state` once and costs one unit of fuel. -/
def wait_transmitter {σ : Type} (d : Device σ) : Nat → World σ → Outcome Unit σ
  | 0, w => .spinning w
  | n + 1, w =>
    if (peek d Reg.state w) &&& (1 <<< UART_STATE_TX_BF) ≠ 0 then
      wait_transmitter d n (afterRead d Reg.state w)
    else
      .done () n (afterRead d Reg.state w)

/-- The loop `while ((uart0.state & (1 << UART_STATE_RX_BF)) == 0) ;` of
`uart_getc`.  Each iteration reads `state` once and costs one unit of fuel. -/
def wait_receiver {σ : Type} (d : Device σ) : Nat → World σ → Outcome Unit σ
  | 0, w => .spinning w
  | n + 1, w =>
    if (peek d Reg.state w) &&& (1 <<< UART_STATE_RX_BF) = 0 then
      wait_receiver d n (afterRead d Reg.state w)
    else
      .done () n (afterRead d Reg.state w)

/-- The function `uart_putc` (the `file` argument is unused).  Entering the
function costs one unit of fuel. -/
def uart_putc {σ : Type} (d : Device σ) : Nat → Int → World σ → Outcome Int σ
  | 0, _, w => .spinning w
  | n + 1, c, w =>
    (if c = LF then (uart_putc d n CR w).bind (fun _ n1 w1 => Outcome.done () n1 w1)
     else Outcome.done () n w).bind fun _ n1 w1 =>
    (wait_transmitter d n1 w1).bind fun _ n2 w2 =>
    .done (toU8 c) n2 (store d Reg.data (toU32 c) w2)

/-- The function `uart_getc` (the `file` argument is unused; the echo goes
through `uart_putc`, which ignores its stream). -/
def uart_getc {σ : Type} (charSigned : Bool) (d : Device σ) (fuel : Nat) (w : World σ) :
    Outcome Int σ :=
  (wait_receiver d fuel w).bind fun _ n1 w1 =>
    let c : Nat := peek d Reg.data w1 % 256
    let c : Nat := if c = 13 then 10 else c
    (uart_putc d n1 (toChar charSigned c) (afterRead d Reg.data w1)).bind fun _ n2 w2 =>
      .done (c : Int) n2 w2

/-! ## Callers and simulated hardware -/

/-- One call made on the driver by the stream layer. -/
inductive Call where
  | putc (c : Int)
  | getc
  deriving DecidableEq, Repr

/-- A sequence of driver calls made one after the other; the result collects
the values returned, in order. -/
def run {σ : Type} (charSigned : Bool) (d : Device σ) :
    List Call → Nat → World σ → Outcome (List Int) σ
  | [], n, w => .done [] n w
  | k :: ks, n, w =>
    (match k with
      | Call.putc c => uart_putc d n c w
      | Call.getc => uart_getc charSigned d n w).bind fun r n1 w1 =>
    (run charSigned d ks n1 w1).bind fun rs n2 w2 => .done (r :: rs) n2 w2

/-- The words written to the `data` register, in order. -/
def dataWrites (tr : List Access) : List Nat :=
  tr.filterMap fun a => match a with
    | Access.write Reg.data v => some v
    | _ => none

/-- The words read from the `data` register, in order. -/
def dataReads (tr : List Access) : List Nat :=
  tr.filterMap fun a => match a with
    | Access.read Reg.data v => some v
    | _ => none

/-- A simulated UART: `rx` holds the words the receiver will present in
`data`, oldest first; `control`, `isr` and `bauddiv` are storage.  Its
transmitter is never full and its receiver is full exactly while `rx` is not
empty. -/
structure SimUart where
  rx : List Nat
  control : Nat
  isr : Nat
  bauddiv : Nat
  deriving DecidableEq, Repr

/-- The register behaviour of the simulated UART. -/
def simUart : Device SimUart where
  read s r :=
    match r with
    | Reg.data => (s.rx.headD 0, { s with rx := s.rx.tail })
    | Reg.state => (if s.rx.isEmpty then 0 else 1 <<< UART_STATE_RX_BF, s)
    | Reg.control => (s.control, s)
    | Reg.isr => (s.isr, s)
    | Reg.bauddiv => (s.bauddiv, s)
  write s r v :=
    match r with
    | Reg.control => { s with control := v }
    | Reg.bauddiv => { s with bauddiv := v }
    | _ => s

/-- A simulated UART with pending input `bs` and cleared storage. -/
def simWith (bs : List Nat) : World SimUart :=
  ⟨⟨bs, 0, 0, 0⟩, []⟩

/-- Hardware whose `state` register always reads `st` and whose `data`
register always reads `dat`. -/
def constDev (st dat : Nat) : Device Unit where
  read _ r :=
    match r with
    | Reg.state => (st, ())
    | Reg.data => (dat, ())
    | _ => (0, ())
  write _ _ _ := ()


/-! ## Specification-side functions -/

/-- The receive-side translation of the specification: carriage-return
becomes line-feed, every other byte is unchanged. -/
def crToLf (b : Nat) : Nat := if b = 13 then 10 else b

/-- The transmit-side translation of the specification: line-feed is sent as
carriage-return, line-feed; every other byte is sent as itself. -/
def crlfExpand (r : Nat) : List Nat := if r = 10 then [13, 10] else [r]

/-- The words `uart_putc` stores to `data` when called with the `char`
that the byte `r` converts to: the echo of `r`. -/
def echoWords (charSigned : Bool) (r : Nat) : List Nat :=
  if r = 10 then [13, 10] else [toU32 (toChar charSigned r)]

/-! ## Checks over chronological logs -/

/-- Check every element of a log against the element just before it
(`prev` is the element before the head, if any). -/
def chainOK {α : Type} (ok : Option α → α → Bool) : Option α → List α → Bool
  | _, [] => true
  | prev, a :: rest => ok prev a && chainOK ok (some a) rest

/-- The last element of a log, or `prev` when the log is empty. -/
def lastOr {α : Type} : Option α → List α → Option α
  | prev, [] => prev
  | _, a :: rest => lastOr (some a) rest

/-- Whether access `a` is allowed right after access `prev`: a write to
`data` needs, just before it, a read of `state` that showed the
transmit-buffer-full bit clear; a read of `data` needs, just before it, a
read of `state` that showed the receive-buffer-full bit set. -/
def guardOK (prev : Option Access) (a : Access) : Bool :=
  match a with
  | Access.write Reg.data _ =>
    match prev with
    | some (Access.read Reg.state s) => !s.testBit UART_STATE_TX_BF
    | _ => false
  | Access.read Reg.data _ =>
    match prev with
    | some (Access.read Reg.state s) => s.testBit UART_STATE_RX_BF
    | _ => false
  | _ => true

/-- The polling discipline on a chronological access log, by positions. -/
def PollDiscipline (tr : List Access) : Prop :=
  (∀ i v, tr[i]? = some (Access.write Reg.data v) →
    ∃ j st, i = j + 1 ∧ tr[j]? = some (Access.read Reg.state st) ∧
      st.testBit UART_STATE_TX_BF = false) ∧
  (∀ i v, tr[i]? = some (Access.read Reg.data v) →
    ∃ j st, i = j + 1 ∧ tr[j]? = some (Access.read Reg.state st) ∧
      st.testBit UART_STATE_RX_BF = true)

/-- Whether word `x` may follow word `prev` on the wire: a line-feed needs
a carriage-return just before it. -/
def lfOK (prev : Option Nat) (x : Nat) : Bool :=
  x != 10 || prev == some 13

/-- Every line-feed in a sequence of words is immediately preceded by a
carriage-return, by positions. -/
def LfAfterCr (ws : List Nat) : Prop :=
  ∀ i, ws[i]? = some 10 → ∃ j, i = j + 1 ∧ ws[j]? = some 13

/-- The words read from the `state` register, in order. -/
def stateReads (tr : List Access) : List Nat :=
  tr.filterMap fun a => match a with
    | Access.read Reg.state v => some v
    | _ => none

/-- The accesses to the `data` register, reads and writes, in order. -/
def dataAccesses (tr : List Access) : List Access :=
  tr.filter fun a => match a with
    | Access.read Reg.data _ => true
    | Access.write Reg.data _ => true
    | _ => false

/-- Whether an access is a read of `state`, a read of `data` or a write of
`data`. -/
def pollOrData (a : Access) : Bool :=
  match a with
  | Access.read Reg.state _ => true
  | Access.read Reg.data _ => true
  | Access.write Reg.data _ => true
  | _ => false

/-- The hardware state after `k` consecutive reads of `state`. -/
def afterPolls {σ : Type} (d : Device σ) : Nat → σ → σ
  | 0, s => s
  | k + 1, s => afterPolls d k (d.read s Reg.state).2

/-- Two worlds, on two pieces of hardware, whose hardware states are related
by `R` and whose logs show the same accesses to `data`. -/
def WorldsAgree {σ τ : Type} (R : σ → τ → Prop) (w : World σ) (u : World τ) : Prop :=
  R w.dev u.dev ∧ dataAccesses w.trace = dataAccesses u.trace

/-- Two outcomes that are both returns, of the same value with the same
fuel left, or both still running, in worlds that agree. -/
def OutcomesAgree {α σ τ : Type} (R : σ → τ → Prop) (o : Outcome α σ) (p : Outcome α τ) :
    Prop :=
  match o, p with
  | Outcome.done a n w, Outcome.done b m u => a = b ∧ n = m ∧ WorldsAgree R w u
  | Outcome.spinning w, Outcome.spinning u => WorldsAgree R w u
  | _, _ => False

/-! # Theorems -/

/-! ## Chronological logs -/

theorem chainOK_append {α : Type} (ok : Option α → α → Bool) :
    ∀ (xs ys : List α) (p : Option α),
      chainOK ok p (xs ++ ys) = (chainOK ok p xs && chainOK ok (lastOr p xs) ys) := by
  intro xs
  induction xs with
  | nil => intro ys p; simp [chainOK, lastOr]
  | cons a rest ih => intro ys p; simp [chainOK, lastOr, ih, Bool.and_assoc]

theorem lastOr_append_singleton {α : Type} :
    ∀ (xs : List α) (a : α) (p : Option α), lastOr p (xs ++ [a]) = some a := by
  intro xs
  induction xs with
  | nil => intro a p; simp [lastOr]
  | cons b rest ih => intro a p; simp [lastOr, ih]

theorem and_bit_ne_zero (v i : Nat) : v &&& (1 <<< i) ≠ 0 ↔ v.testBit i = true := by
  rw [Nat.one_shiftLeft, Nat.and_two_pow]
  cases h : v.testBit i <;> simp

theorem and_bit_eq_zero (v i : Nat) : v &&& (1 <<< i) = 0 ↔ v.testBit i = false := by
  rw [Nat.one_shiftLeft, Nat.and_two_pow]
  cases h : v.testBit i <;> simp

@[simp] theorem Outcome.bind_done {α β σ : Type} (a : α) (n : Nat) (w : World σ)
    (f : α → Nat → World σ → Outcome β σ) : (Outcome.done a n w).bind f = f a n w := rfl

@[simp] theorem Outcome.bind_spinning {α β σ : Type} (w : World σ)
    (f : α → Nat → World σ → Outcome β σ) :
    (Outcome.spinning w : Outcome α σ).bind f = Outcome.spinning w := rfl

@[simp] theorem afterRead_trace {σ : Type} (d : Device σ) (r : Reg) (w : World σ) :
    (afterRead d r w).trace = w.trace ++ [Access.read r (peek d r w)] := rfl

@[simp] theorem store_trace {σ : Type} (d : Device σ) (r : Reg) (v : Nat) (w : World σ) :
    (store d r v w).trace = w.trace ++ [Access.write r v] := rfl

/-- The transmit wait only polls `state`: every poll but the last saw the
transmit-buffer-full bit set, and a completed wait ends on a poll that saw
it clear. -/
theorem wait_transmitter_shape {σ : Type} (d : Device σ) : ∀ (n : Nat) (w : World σ),
    ∃ vs : List Nat,
      (wait_transmitter d n w).world.trace = w.trace ++ vs.map (Access.read Reg.state) ∧
      vs.length ≤ n ∧
      (∀ a n' w', wait_transmitter d n w = Outcome.done a n' w' →
        n' + vs.length = n ∧
        ∃ vs' v, vs = vs' ++ [v] ∧ v.testBit UART_STATE_TX_BF = false) ∧
      (∀ w', wait_transmitter d n w = Outcome.spinning w' → vs.length = n) := by
  intro n
  induction n with
  | zero =>
    intro w
    exact ⟨[], by simp [wait_transmitter, Outcome.world], by simp,
      by simp [wait_transmitter], by simp⟩
  | succ n ih =>
    intro w
    by_cases hb : (peek d Reg.state w) &&& (1 <<< UART_STATE_TX_BF) ≠ 0
    · obtain ⟨vs, h1, h2, h3, h4⟩ := ih (afterRead d Reg.state w)
      refine ⟨peek d Reg.state w :: vs, ?_, ?_, ?_, ?_⟩
      · simp [wait_transmitter, hb, h1]
      · simp; omega
      · intro a n' w' hd
        rw [wait_transmitter, if_pos hb] at hd
        obtain ⟨e1, vs', v, e2, e3⟩ := h3 a n' w' hd
        refine ⟨by simp; omega, peek d Reg.state w :: vs', v, by simp [e2], e3⟩
      · intro w' hd
        rw [wait_transmitter, if_pos hb] at hd
        simp [h4 w' hd]
    · refine ⟨[peek d Reg.state w], ?_, ?_, ?_, ?_⟩
      · simp [wait_transmitter, hb, Outcome.world]
      · simp
      · intro a n' w' hd
        rw [wait_transmitter, if_neg hb] at hd
        cases hd
        refine ⟨by simp, [], peek d Reg.state w, by simp, ?_⟩
        have := (and_bit_eq_zero (peek d Reg.state w) UART_STATE_TX_BF).1 (by simpa using hb)
        exact this
      · intro w' hd
        simp [wait_transmitter, hb] at hd

/-- The receive wait only polls `state`, and a completed wait ends on a poll
that saw the receive-buffer-full bit set. -/
theorem wait_receiver_shape {σ : Type} (d : Device σ) : ∀ (n : Nat) (w : World σ),
    ∃ vs : List Nat,
      (wait_receiver d n w).world.trace = w.trace ++ vs.map (Access.read Reg.state) ∧
      vs.length ≤ n ∧
      (∀ a n' w', wait_receiver d n w = Outcome.done a n' w' →
        n' + vs.length = n ∧
        ∃ vs' v, vs = vs' ++ [v] ∧ v.testBit UART_STATE_RX_BF = true) ∧
      (∀ w', wait_receiver d n w = Outcome.spinning w' → vs.length = n) := by
  intro n
  induction n with
  | zero =>
    intro w
    exact ⟨[], by simp [wait_receiver, Outcome.world], by simp,
      by simp [wait_receiver], by simp⟩
  | succ n ih =>
    intro w
    by_cases hb : (peek d Reg.state w) &&& (1 <<< UART_STATE_RX_BF) = 0
    · obtain ⟨vs, h1, h2, h3, h4⟩ := ih (afterRead d Reg.state w)
      refine ⟨peek d Reg.state w :: vs, ?_, ?_, ?_, ?_⟩
      · simp [wait_receiver, hb, h1]
      · simp; omega
      · intro a n' w' hd
        rw [wait_receiver, if_pos hb] at hd
        obtain ⟨e1, vs', v, e2, e3⟩ := h3 a n' w' hd
        refine ⟨by simp; omega, peek d Reg.state w :: vs', v, by simp [e2], e3⟩
      · intro w' hd
        rw [wait_receiver, if_pos hb] at hd
        simp [h4 w' hd]
    · refine ⟨[peek d Reg.state w], ?_, ?_, ?_, ?_⟩
      · simp [wait_receiver, hb, Outcome.world]
      · simp
      · intro a n' w' hd
        rw [wait_receiver, if_neg hb] at hd
        cases hd
        refine ⟨by simp, [], peek d Reg.state w, by simp, ?_⟩
        exact (and_bit_ne_zero (peek d Reg.state w) UART_STATE_RX_BF).1 hb
      · intro w' hd
        simp [wait_receiver, hb] at hd


/-! ## Integer conversions and the translations -/

theorem toU8_toChar (cs : Bool) (r : Nat) (h : r < 256) : toU8 (toChar cs r) = r := by
  unfold toU8 toChar
  cases cs <;> simp <;> omega

theorem toChar_isChar (cs : Bool) (x : Int) : isChar cs (toChar cs x) := by
  unfold isChar toChar
  cases cs <;> simp <;> omega

theorem toChar_eq_LF (cs : Bool) (r : Nat) (h : r < 256) : toChar cs r = LF ↔ r = 10 := by
  unfold toChar LF
  cases cs <;> simp <;> omega

theorem toU32_eq_ten (cs : Bool) (c : Int) (h : isChar cs c) : toU32 c = 10 ↔ c = LF := by
  unfold isChar at h
  unfold toU32 LF
  cases cs <;> simp at h <;> omega

theorem echoWords_unsigned (r : Nat) (h : r < 256) : echoWords false r = crlfExpand r := by
  unfold echoWords crlfExpand toU32 toChar
  split
  · rfl
  · simp; omega

theorem echoWords_ascii (cs : Bool) (r : Nat) (h : r < 128) : echoWords cs r = crlfExpand r := by
  unfold echoWords crlfExpand toU32 toChar
  split
  · rfl
  · cases cs <;> simp <;> omega

theorem toU8_LF : toU8 LF = 10 := by decide

theorem toU32_LF : toU32 LF = 10 := by decide

theorem toU32_CR : toU32 CR = 13 := by decide

/-! ## `uart_putc` on hardware whose transmitter is ready -/

theorem wait_transmitter_ready {σ : Type} (d : Device σ)
    (hclear : ∀ s, (d.read s Reg.state).1.testBit UART_STATE_TX_BF = false)
    (n : Nat) (w : World σ) :
    wait_transmitter d (n + 1) w = Outcome.done () n (afterRead d Reg.state w) := by
  have h0 : (peek d Reg.state w) &&& (1 <<< UART_STATE_TX_BF) = 0 :=
    (and_bit_eq_zero _ _).2 (hclear w.dev)
  simp [wait_transmitter, h0]

theorem uart_putc_ready_other {σ : Type} (d : Device σ)
    (hclear : ∀ s, (d.read s Reg.state).1.testBit UART_STATE_TX_BF = false)
    (n : Nat) (c : Int) (hc : c ≠ LF) (w : World σ) :
    uart_putc d (n + 2) c w =
      Outcome.done ((toU8 c : Nat) : Int) n
        (store d Reg.data (toU32 c) (afterRead d Reg.state w)) := by
  simp [uart_putc, hc, wait_transmitter_ready d hclear]

theorem uart_putc_ready_lf {σ : Type} (d : Device σ)
    (hclear : ∀ s, (d.read s Reg.state).1.testBit UART_STATE_TX_BF = false)
    (n : Nat) (w : World σ) :
    uart_putc d (n + 4) LF w =
      Outcome.done 10 n (store d Reg.data 10 (afterRead d Reg.state
        (store d Reg.data 13 (afterRead d Reg.state w)))) := by
  have h13 : CR ≠ LF := by decide
  rw [uart_putc]
  simp only [if_true]
  rw [show n + 3 = (n + 1) + 2 from rfl, uart_putc_ready_other d hclear (n + 1) CR h13]
  simp [wait_transmitter_ready d hclear, toU8_LF, toU32_LF, toU32_CR]

@[simp] theorem dataWrites_append (xs ys : List Access) :
    dataWrites (xs ++ ys) = dataWrites xs ++ dataWrites ys := by
  simp [dataWrites]

@[simp] theorem dataReads_append (xs ys : List Access) :
    dataReads (xs ++ ys) = dataReads xs ++ dataReads ys := by
  simp [dataReads]

@[simp] theorem dataWrites_cons_read (r : Reg) (v : Nat) (xs : List Access) :
    dataWrites (Access.read r v :: xs) = dataWrites xs := by
  simp [dataWrites]

@[simp] theorem dataWrites_cons_write_data (v : Nat) (xs : List Access) :
    dataWrites (Access.write Reg.data v :: xs) = v :: dataWrites xs := by
  simp [dataWrites]

@[simp] theorem dataWrites_nil : dataWrites [] = [] := rfl

@[simp] theorem dataReads_nil : dataReads [] = [] := rfl

@[simp] theorem dataReads_cons_write (r : Reg) (v : Nat) (xs : List Access) :
    dataReads (Access.write r v :: xs) = dataReads xs := by
  simp [dataReads]

@[simp] theorem dataReads_cons_read_state (v : Nat) (xs : List Access) :
    dataReads (Access.read Reg.state v :: xs) = dataReads xs := by
  simp [dataReads]

@[simp] theorem dataReads_cons_read_data (v : Nat) (xs : List Access) :
    dataReads (Access.read Reg.data v :: xs) = v :: dataReads xs := by
  simp [dataReads]

/-! ## Transmit and receive on ready hardware -/

/-- C1: on hardware whose transmit-buffer-full bit is clear at every poll,
`uart_putc` called with line-feed returns (four units of fuel suffice), and
the accesses it makes are: poll, write of carriage-return (13) to `data`,
poll, write of line-feed (10) to `data`; so its writes to the data register
are exactly 13 then 10. -/
theorem uart_putc_newline_writes_cr_lf {σ : Type} (d : Device σ)
    (hclear : ∀ s, (d.read s Reg.state).1.testBit UART_STATE_TX_BF = false)
    (n : Nat) (w : World σ) :
    ∃ w' v1 v2, uart_putc d (n + 4) LF w = Outcome.done 10 n w' ∧
      w'.trace = w.trace ++ [Access.read Reg.state v1, Access.write Reg.data 13,
        Access.read Reg.state v2, Access.write Reg.data 10] ∧
      dataWrites w'.trace = dataWrites w.trace ++ [13, 10] := by
  refine ⟨_, peek d Reg.state w,
    peek d Reg.state (store d Reg.data 13 (afterRead d Reg.state w)),
    uart_putc_ready_lf d hclear n w, ?_, ?_⟩
  · simp
  · simp

theorem uart_putc_newline_writes_cr_lf_witness :
    (∀ s, ((constDev 0 0).read s Reg.state).1.testBit UART_STATE_TX_BF = false) ∧
    ∃ w' v1 v2, uart_putc (constDev 0 0) (0 + 4) LF ⟨(), []⟩ = Outcome.done 10 0 w' ∧
      w'.trace = [] ++ [Access.read Reg.state v1, Access.write Reg.data 13,
        Access.read Reg.state v2, Access.write Reg.data 10] ∧
      dataWrites w'.trace = dataWrites [] ++ [13, 10] :=
  ⟨fun _ => by simp [constDev],
   uart_putc_newline_writes_cr_lf (constDev 0 0) (fun _ => by simp [constDev]) 0 ⟨(), []⟩⟩


theorem constDev_read_state (st dat : Nat) (s : Unit) :
    ((constDev st dat).read s Reg.state).1 = st := rfl

theorem wait_receiver_ready {σ : Type} (d : Device σ) (n : Nat) (w : World σ)
    (hfull : (peek d Reg.state w).testBit UART_STATE_RX_BF = true) :
    wait_receiver d (n + 1) w = Outcome.done () n (afterRead d Reg.state w) := by
  have h0 : (peek d Reg.state w) &&& (1 <<< UART_STATE_RX_BF) ≠ 0 :=
    (and_bit_ne_zero _ _).2 hfull
  simp [wait_receiver, h0]

/-- On hardware whose transmitter is never full, an echo of byte `r`
returns within four units of fuel and appends the words `echoWords r` to
the data-register writes, reading `data` not at all. -/
theorem uart_putc_ready_echo {σ : Type} (cs : Bool) (d : Device σ)
    (hclear : ∀ s, (d.read s Reg.state).1.testBit UART_STATE_TX_BF = false)
    (n : Nat) (r : Nat) (hr : r < 256) (w : World σ) :
    ∃ n' w', uart_putc d (n + 4) (toChar cs r) w = Outcome.done (r : Int) n' w' ∧
      n ≤ n' ∧
      w'.dev = d.write (d.read (if r = 10 then
          d.write (d.read w.dev Reg.state).2 Reg.data 13 else w.dev) Reg.state).2
          Reg.data (toU32 (toChar cs r)) ∧
      dataWrites w'.trace = dataWrites w.trace ++ echoWords cs r ∧
      dataReads w'.trace = dataReads w.trace := by
  by_cases h10 : r = 10
  · have hc : toChar cs r = LF := (toChar_eq_LF cs r hr).2 h10
    refine ⟨n, store d Reg.data 10 (afterRead d Reg.state
      (store d Reg.data 13 (afterRead d Reg.state w))), ?_, le_refl _, ?_, ?_, ?_⟩
    · rw [hc, uart_putc_ready_lf d hclear n w, h10]
      rfl
    · subst h10
      have hc' : toChar cs 10 = LF := by simpa using hc
      simp [store, afterRead, hc', toU32_LF]
    · simp [echoWords, h10]
    · simp
  · have hc : toChar cs r ≠ LF := fun h => h10 ((toChar_eq_LF cs r hr).1 h)
    refine ⟨n + 2, store d Reg.data (toU32 (toChar cs r)) (afterRead d Reg.state w),
      ?_, by omega, ?_, ?_, ?_⟩
    · rw [show n + 4 = (n + 2) + 2 from rfl, uart_putc_ready_other d hclear (n + 2) _ hc w,
        toU8_toChar cs r hr]
    · simp [h10, store, afterRead]
    · simp [echoWords, h10]
    · simp

/-- With the receiver full at the first poll, `uart_getc` reads `data`
once and hands the translated byte to `uart_putc`. -/
theorem uart_getc_ready {σ : Type} (cs : Bool) (d : Device σ) (n : Nat) (w : World σ)
    (hfull : (peek d Reg.state w).testBit UART_STATE_RX_BF = true) :
    uart_getc cs d (n + 1) w =
      (uart_putc d n (toChar cs (crToLf (peek d Reg.data (afterRead d Reg.state w) % 256)))
        (afterRead d Reg.data (afterRead d Reg.state w))).bind
        fun _ n2 w2 =>
          Outcome.done ((crToLf (peek d Reg.data (afterRead d Reg.state w) % 256) : Nat) : Int)
            n2 w2 := by
  simp [uart_getc, wait_receiver_ready d n w hfull, crToLf]

/-- C2: on hardware whose receiver is full and whose transmitter is not
full at every poll, presenting the byte `b` in `data`, one call of
`uart_getc` returns (five units of fuel suffice) the translation
`crToLf b`; it ends in exactly the world in which `uart_putc`, called with
that translated byte right after the read of `data`, ends, so it transmits
exactly what that call transmits; the one read of `data` is `b`; and for
`b` = 13 it returns 10 and its data-register writes are 13 then 10. -/
theorem uart_getc_translates_then_echoes {σ : Type} (cs : Bool) (d : Device σ)
    (hready : ∀ s, (d.read s Reg.state).1.testBit UART_STATE_TX_BF = false ∧
      (d.read s Reg.state).1.testBit UART_STATE_RX_BF = true)
    (n : Nat) (w : World σ) (b : Nat) (hb : b < 256)
    (hdata : peek d Reg.data (afterRead d Reg.state w) = b) :
    ∃ n' w', uart_getc cs d (n + 5) w = Outcome.done ((crToLf b : Nat) : Int) n' w' ∧
      uart_putc d (n + 4) (toChar cs (crToLf b))
        (afterRead d Reg.data (afterRead d Reg.state w)) =
          Outcome.done ((crToLf b : Nat) : Int) n' w' ∧
      dataReads w'.trace = dataReads w.trace ++ [b] ∧
      dataWrites w'.trace = dataWrites w.trace ++ echoWords cs (crToLf b) ∧
      (b = 13 → crToLf b = 10 ∧ dataWrites w'.trace = dataWrites w.trace ++ [13, 10]) := by
  have hclear : ∀ s, (d.read s Reg.state).1.testBit UART_STATE_TX_BF = false :=
    fun s => (hready s).1
  have ht : crToLf b < 256 := by unfold crToLf; split <;> omega
  obtain ⟨n', w', h1, _, _, h4, h5⟩ := uart_putc_ready_echo cs d hclear n (crToLf b) ht
    (afterRead d Reg.data (afterRead d Reg.state w))
  have hmod : b % 256 = b := Nat.mod_eq_of_lt hb
  refine ⟨n', w', ?_, h1, ?_, ?_, ?_⟩
  · rw [uart_getc_ready cs d (n + 4) w (hready w.dev).2, hdata, hmod, h1]
    rfl
  · rw [h5]; simp [hdata]
  · rw [h4]; simp
  · intro h13
    rw [h4]
    subst h13
    simp [crToLf, echoWords]

theorem uart_getc_translates_then_echoes_witness :
    (∀ s, ((constDev 2 13).read s Reg.state).1.testBit UART_STATE_TX_BF = false ∧
      ((constDev 2 13).read s Reg.state).1.testBit UART_STATE_RX_BF = true) ∧
    (13 < 256) ∧
    peek (constDev 2 13) Reg.data (afterRead (constDev 2 13) Reg.state ⟨(), []⟩) = 13 ∧
    ∃ n' w', uart_getc false (constDev 2 13) (0 + 5) ⟨(), []⟩ =
        Outcome.done ((crToLf 13 : Nat) : Int) n' w' ∧
      uart_putc (constDev 2 13) (0 + 4) (toChar false (crToLf 13))
        (afterRead (constDev 2 13) Reg.data (afterRead (constDev 2 13) Reg.state ⟨(), []⟩)) =
          Outcome.done ((crToLf 13 : Nat) : Int) n' w' ∧
      dataReads w'.trace = dataReads [] ++ [13] ∧
      dataWrites w'.trace = dataWrites [] ++ echoWords false (crToLf 13) ∧
      (13 = 13 → crToLf 13 = 10 ∧ dataWrites w'.trace = dataWrites [] ++ [13, 10]) :=
  ⟨fun s => ⟨by rw [constDev_read_state]; decide, by rw [constDev_read_state]; decide⟩,
   by decide, rfl,
   uart_getc_translates_then_echoes false (constDev 2 13)
     (fun s => ⟨by rw [constDev_read_state]; decide, by rw [constDev_read_state]; decide⟩)
     0 ⟨(), []⟩ 13 (by decide) rfl⟩


/-! ## Streams of received bytes on the simulated UART -/

theorem simUart_tx_clear (s : SimUart) :
    (simUart.read s Reg.state).1.testBit UART_STATE_TX_BF = false := by
  simp only [simUart]
  split <;> decide

theorem simUart_write_data (s : SimUart) (v : Nat) : simUart.write s Reg.data v = s := rfl

theorem simUart_read_state (s : SimUart) : (simUart.read s Reg.state).2 = s := rfl

/-- One `uart_getc` on the simulated UART with a pending byte `b`. -/
theorem uart_getc_sim_step (cs : Bool) (b : Nat) (hb : b < 256) (bs : List Nat)
    (c i bd : Nat) (tr : List Access) (n : Nat) :
    ∃ n' tr', uart_getc cs simUart (n + 5) ⟨⟨b :: bs, c, i, bd⟩, tr⟩ =
        Outcome.done ((crToLf b : Nat) : Int) n' ⟨⟨bs, c, i, bd⟩, tr'⟩ ∧
      n ≤ n' ∧
      dataReads tr' = dataReads tr ++ [b] ∧
      dataWrites tr' = dataWrites tr ++ echoWords cs (crToLf b) := by
  have ht : crToLf b < 256 := by unfold crToLf; split <;> omega
  have hfull : (peek simUart Reg.state ⟨⟨b :: bs, c, i, bd⟩, tr⟩).testBit UART_STATE_RX_BF
      = true := by
    simp only [peek, simUart, List.isEmpty_cons]
    exact (by decide : (if false = true then 0 else 1 <<< UART_STATE_RX_BF).testBit
      UART_STATE_RX_BF = true)
  have hpeek : peek simUart Reg.data (afterRead simUart Reg.state ⟨⟨b :: bs, c, i, bd⟩, tr⟩)
      = b := rfl
  obtain ⟨n', w', h1, h2, h3, h4, h5⟩ := uart_putc_ready_echo cs simUart simUart_tx_clear n
    (crToLf b) ht (afterRead simUart Reg.data (afterRead simUart Reg.state
      ⟨⟨b :: bs, c, i, bd⟩, tr⟩))
  have hdev : w'.dev = ⟨bs, c, i, bd⟩ := by
    rw [h3]
    split <;> rfl
  refine ⟨n', w'.trace, ?_, h2, ?_, ?_⟩
  · rw [uart_getc_ready cs simUart (n + 4) _ hfull, hpeek, Nat.mod_eq_of_lt hb, h1]
    cases w' with
    | mk dv t =>
      simp only at hdev
      subst hdev
      rfl
  · rw [h5]; simp [hpeek]
  · rw [h4]; simp

/-- Calling `uart_getc` once per pending byte of the simulated UART. -/
theorem run_getc_sim (cs : Bool) : ∀ (bs : List Nat), (∀ b ∈ bs, b < 256) →
    ∀ (n c i bd : Nat) (tr : List Access),
    ∃ n' tr', run cs simUart (List.replicate bs.length Call.getc) (5 * bs.length + n)
        ⟨⟨bs, c, i, bd⟩, tr⟩ =
        Outcome.done (bs.map fun b => ((crToLf b : Nat) : Int)) n' ⟨⟨[], c, i, bd⟩, tr'⟩ ∧
      dataReads tr' = dataReads tr ++ bs ∧
      dataWrites tr' = dataWrites tr ++ (bs.map crToLf).flatMap (echoWords cs) := by
  intro bs
  induction bs with
  | nil =>
    intro _ n c i bd tr
    exact ⟨n, tr, by simp [run], by simp, by simp⟩
  | cons b rest ih =>
    intro hb n c i bd tr
    have hb0 : b < 256 := hb b (by simp)
    have hrest : ∀ x ∈ rest, x < 256 := fun x hx => hb x (by simp [hx])
    obtain ⟨n1, tr1, e1, e2, e3, e4⟩ :=
      uart_getc_sim_step cs b hb0 rest c i bd tr (5 * rest.length + n)
    obtain ⟨n2, tr2, f1, f2, f3⟩ := ih hrest (n1 - 5 * rest.length) c i bd tr1
    have hfuel : 5 * rest.length + (n1 - 5 * rest.length) = n1 := by omega
    rw [hfuel] at f1
    refine ⟨n2, tr2, ?_, ?_, ?_⟩
    · have hlen : 5 * (b :: rest).length + n = (5 * rest.length + n) + 5 := by
        simp only [List.length_cons]; omega
      rw [hlen]
      simp only [List.length_cons, List.replicate_succ, run, e1, Outcome.bind_done, f1,
        List.map_cons]
    · rw [f2, e3]; simp
    · rw [f3, e4]; simp [List.flatMap_cons]

theorem echoWords_low_bytes (cs : Bool) (r : Nat) (h : r < 256) :
    (echoWords cs r).map (fun x => x % 256) = crlfExpand r := by
  unfold echoWords crlfExpand toU32 toChar
  split
  · rfl
  · cases cs <;> simp <;> omega

theorem flatMap_echoWords_low_bytes (cs : Bool) (rs : List Nat) (h : ∀ r ∈ rs, r < 256) :
    (rs.flatMap (echoWords cs)).map (fun x => x % 256) = rs.flatMap crlfExpand := by
  induction rs with
  | nil => rfl
  | cons r rest ih =>
    simp only [List.flatMap_cons, List.map_append]
    rw [echoWords_low_bytes cs r (h r (by simp)), ih (fun x hx => h x (by simp [hx]))]

/-- C3, as stated, fails where plain `char` is signed: with the byte 200
pending on the simulated UART, `uart_getc` returns 200, and its echo
writes to `data` the sign-extended word 4294967240, not the returned
value 200. -/
theorem uart_getc_echo_stores_sign_extended_word :
    (∀ b ∈ [200], b < 256) ∧
    (run true simUart [Call.getc] 5 (simWith [200])).value = some [200] ∧
    dataWrites (run true simUart [Call.getc] 5 (simWith [200])).world.trace
      = [4294967240] ∧
    ([200].map crToLf).flatMap crlfExpand = [200] ∧
    ¬ (dataWrites (run true simUart [Call.getc] 5 (simWith [200])).world.trace
      = ([200].map crToLf).flatMap crlfExpand) := by
  refine ⟨by decide, by decide, by decide, by decide, by decide⟩

/-- C3, amended: on the simulated UART (every pending byte available when
polled, transmitter never full), calling `uart_getc` once per input byte of
`bs` returns (five units of fuel per call suffice) the list `bs` with every
carriage-return replaced by line-feed, and the bytes read from `data` are
`bs`.  The low 8 bits of the words written to `data`, in order, are the
returned values with every line-feed expanded to 13, 10; the words themselves
are the concatenation of the echo of each returned value, 13, 10 for
line-feed and otherwise the one word the value converts to through plain
`char`.  When plain `char` is unsigned, or every input byte is below 128, the
words written are exactly the returned values with every line-feed expanded
to 13, 10.  For the input `H`, `i`, CR the returns are `H`, `i`, LF and the
writes are `H`, `i`, CR, LF. -/
theorem uart_getc_stream (cs : Bool) (bs : List Nat) (hb : ∀ b ∈ bs, b < 256) (n : Nat) :
    (∃ n' w', run cs simUart (List.replicate bs.length Call.getc) (5 * bs.length + n)
        (simWith bs) = Outcome.done (bs.map fun b => ((crToLf b : Nat) : Int)) n' w' ∧
      dataReads w'.trace = bs ∧
      (dataWrites w'.trace).map (fun x => x % 256) = (bs.map crToLf).flatMap crlfExpand ∧
      dataWrites w'.trace = (bs.map crToLf).flatMap (echoWords cs) ∧
      ((cs = false ∨ ∀ b ∈ bs, b < 128) →
        dataWrites w'.trace = (bs.map crToLf).flatMap crlfExpand)) ∧
    (run cs simUart [Call.getc, Call.getc, Call.getc] 15 (simWith [72, 105, 13])).value
      = some [72, 105, 10] ∧
    dataWrites (run cs simUart [Call.getc, Call.getc, Call.getc] 15
      (simWith [72, 105, 13])).world.trace = [72, 105, 13, 10] := by
  refine ⟨?_, ?_, ?_⟩
  · obtain ⟨n', tr', h1, h2, h3⟩ := run_getc_sim cs bs hb n 0 0 0 []
    have h3' : dataWrites tr' = (bs.map crToLf).flatMap (echoWords cs) := by simpa using h3
    have hlt : ∀ r ∈ bs.map crToLf, r < 256 := by
      intro r hr
      obtain ⟨b, hbm, rfl⟩ := List.mem_map.1 hr
      have := hb b hbm
      unfold crToLf; split <;> omega
    refine ⟨n', _, h1, by simpa using h2, ?_, h3', ?_⟩
    · show (dataWrites tr').map (fun x => x % 256) = _
      rw [h3']
      exact flatMap_echoWords_low_bytes cs _ hlt
    intro hc
    show dataWrites tr' = _
    rw [h3']
    have hpt : ∀ r ∈ bs.map crToLf, echoWords cs r = crlfExpand r := by
      intro r hr
      have hr256 := hlt r hr
      obtain ⟨b, hbm, rfl⟩ := List.mem_map.1 hr
      rcases hc with hc | hc
      · subst hc; exact echoWords_unsigned _ hr256
      · have h7 : crToLf b < 128 := by
          have := hc b hbm
          unfold crToLf; split <;> omega
        exact echoWords_ascii cs _ h7
    generalize bs.map crToLf = rs at hpt
    induction rs with
    | nil => rfl
    | cons r rest ih =>
      simp only [List.flatMap_cons]
      rw [hpt r (by simp), ih (fun x hx => hpt x (by simp [hx]))]
  · cases cs <;> decide
  · cases cs <;> decide

theorem uart_getc_stream_witness :
    (∀ b ∈ [200, 13, 10], b < 256) ∧
    ((∃ n' w', run false simUart (List.replicate [200, 13, 10].length Call.getc)
        (5 * [200, 13, 10].length + 0) (simWith [200, 13, 10]) =
          Outcome.done ([200, 13, 10].map fun b => ((crToLf b : Nat) : Int)) n' w' ∧
      dataReads w'.trace = [200, 13, 10] ∧
      (dataWrites w'.trace).map (fun x => x % 256)
        = ([200, 13, 10].map crToLf).flatMap crlfExpand ∧
      dataWrites w'.trace = ([200, 13, 10].map crToLf).flatMap (echoWords false) ∧
      ((false = false ∨ ∀ b ∈ [200, 13, 10], b < 128) →
        dataWrites w'.trace = ([200, 13, 10].map crToLf).flatMap crlfExpand)) ∧
    (run false simUart [Call.getc, Call.getc, Call.getc] 15 (simWith [72, 105, 13])).value
      = some [72, 105, 10] ∧
    dataWrites (run false simUart [Call.getc, Call.getc, Call.getc] 15
      (simWith [72, 105, 13])).world.trace = [72, 105, 13, 10]) :=
  ⟨by decide, uart_getc_stream false [200, 13, 10] (by decide) 0⟩

/-! ## Initialisation -/

theorem toU32_clock_div (k : Nat) (hk : 0 < k) :
    toU32 (Int.tdiv CLOCK (k : Int)) = 25000000 / k := by
  have h1 : Int.tdiv CLOCK (k : Int) = ((25000000 / k : Nat) : Int) := by
    unfold CLOCK
    rw [Int.tdiv_eq_ediv (by decide) (by omega)]
    norm_cast
  have h2 : 25000000 / k ≤ 25000000 := Nat.div_le_self _ _
  rw [h1]
  unfold toU32
  generalize 25000000 / k = q at h2
  omega

theorem control_word :
    ((1 <<< UART_CONTROL_RX_EN) ||| (1 <<< UART_CONTROL_TX_EN) : Nat) = 3 := by decide

/-- C4: for every positive baud rate `r`, `uart_init` returns and its
accesses are the write of the truncated quotient 25000000 / r to `bauddiv`
followed by the write of 3 to `control`; when `r` divides 25000000 the value
written times `r` is 25000000; for `r` = 115200 the value written is 217. -/
theorem uart_init_writes_quotient {σ : Type} (d : Device σ) (r : Int) (hr : 0 < r)
    (w : World σ) :
    (∃ w', uart_init d r w = some w' ∧
      w'.trace = w.trace ++
        [Access.write Reg.bauddiv (25000000 / r.toNat), Access.write Reg.control 3]) ∧
    (r ∣ 25000000 → ((25000000 / r.toNat : Nat) : Int) * r = 25000000) ∧
    (∃ w', uart_init d 115200 w = some w' ∧
      w'.trace = w.trace ++
        [Access.write Reg.bauddiv 217, Access.write Reg.control 3]) := by
  obtain ⟨k, rfl⟩ : ∃ k : Nat, r = (k : Int) := ⟨r.toNat, (Int.toNat_of_nonneg hr.le).symm⟩
  have hk : 0 < k := by omega
  refine ⟨?_, ?_, ?_⟩
  · refine ⟨_, by simp only [uart_init]; rw [if_neg (by omega)], ?_⟩
    simp [toU32_clock_div k hk, control_word]
  · intro hdvd
    have hdvd' : k ∣ 25000000 := by exact_mod_cast hdvd
    simp only [Int.toNat_ofNat]
    exact_mod_cast Nat.div_mul_cancel hdvd'
  · refine ⟨_, by simp only [uart_init]; rw [if_neg (by decide)], ?_⟩
    have h := toU32_clock_div 115200 (by decide)
    simp only [Nat.cast_ofNat] at h
    simp [h, control_word]

theorem uart_init_writes_quotient_witness :
    (0 : Int) < 9600 ∧
    ((∃ w', uart_init simUart 9600 (simWith []) = some w' ∧
      w'.trace = (simWith []).trace ++
        [Access.write Reg.bauddiv (25000000 / (9600 : Int).toNat),
          Access.write Reg.control 3]) ∧
    ((9600 : Int) ∣ 25000000 →
      ((25000000 / (9600 : Int).toNat : Nat) : Int) * 9600 = 25000000) ∧
    (∃ w', uart_init simUart 115200 (simWith []) = some w' ∧
      w'.trace = (simWith []).trace ++
        [Access.write Reg.bauddiv 217, Access.write Reg.control 3])) :=
  ⟨by decide, uart_init_writes_quotient simUart 9600 (by decide) (simWith [])⟩

/-- C5: for every nonzero baud rate, `uart_init` returns and its last access
is the write of the word 3 to `control`; on the simulated UART, whatever its
registers held before, the control register then holds 3: the transmit and
receive enable bits (0 and 1) are set, the four interrupt enable bits (2 to
5) and the half-duplex timing bit (6) are clear, and so is every higher bit. -/
theorem uart_init_control_is_three (r : Int) (hr : r ≠ 0) :
    (∀ {σ : Type} (d : Device σ) (w : World σ), ∃ w' q, uart_init d r w = some w' ∧
      w'.trace = w.trace ++ [Access.write Reg.bauddiv q, Access.write Reg.control 3]) ∧
    (∀ (s : SimUart) (tr : List Access), ∃ w', uart_init simUart r ⟨s, tr⟩ = some w' ∧
      w'.dev.control = 3 ∧
      peek simUart Reg.control w' = 3 ∧
      w'.dev.control.testBit UART_CONTROL_TX_EN = true ∧
      w'.dev.control.testBit UART_CONTROL_RX_EN = true ∧
      w'.dev.control.testBit UART_CONTROL_TX_IN_EN = false ∧
      w'.dev.control.testBit UART_CONTROL_RX_IN_EN = false ∧
      w'.dev.control.testBit UART_CONTROL_TX_OV_EN = false ∧
      w'.dev.control.testBit UART_CONTROL_RX_OV_EN = false ∧
      w'.dev.control.testBit UART_CONTROL_HS_TM_TX = false ∧
      ∀ i, 2 ≤ i → w'.dev.control.testBit i = false) := by
  refine ⟨?_, ?_⟩
  · intro σ d w
    refine ⟨_, toU32 (Int.tdiv CLOCK r), by simp only [uart_init]; rw [if_neg hr], ?_⟩
    simp [control_word]
  · intro s tr
    refine ⟨_, by simp only [uart_init]; rw [if_neg hr], ?_⟩
    have hc : (store simUart Reg.control
        ((1 <<< UART_CONTROL_RX_EN) ||| (1 <<< UART_CONTROL_TX_EN))
        (store simUart Reg.bauddiv (toU32 (Int.tdiv CLOCK r)) ⟨s, tr⟩)).dev.control = 3 := by
      rw [control_word]; rfl
    refine ⟨hc, ?_, ?_⟩
    · exact hc
    · rw [hc]
      refine ⟨by decide, by decide, by decide, by decide, by decide, by decide, by decide, ?_⟩
      intro i hi
      apply Nat.testBit_eq_false_of_lt
      calc 3 < 2 ^ 2 := by decide
        _ ≤ 2 ^ i := Nat.pow_le_pow_right (by decide) hi

theorem uart_init_control_is_three_witness :
    (115200 : Int) ≠ 0 ∧
    ((∀ {σ : Type} (d : Device σ) (w : World σ), ∃ w' q, uart_init d 115200 w = some w' ∧
      w'.trace = w.trace ++ [Access.write Reg.bauddiv q, Access.write Reg.control 3]) ∧
    (∀ (s : SimUart) (tr : List Access), ∃ w',
      uart_init simUart 115200 ⟨s, tr⟩ = some w' ∧
      w'.dev.control = 3 ∧
      peek simUart Reg.control w' = 3 ∧
      w'.dev.control.testBit UART_CONTROL_TX_EN = true ∧
      w'.dev.control.testBit UART_CONTROL_RX_EN = true ∧
      w'.dev.control.testBit UART_CONTROL_TX_IN_EN = false ∧
      w'.dev.control.testBit UART_CONTROL_RX_IN_EN = false ∧
      w'.dev.control.testBit UART_CONTROL_TX_OV_EN = false ∧
      w'.dev.control.testBit UART_CONTROL_RX_OV_EN = false ∧
      w'.dev.control.testBit UART_CONTROL_HS_TM_TX = false ∧
      ∀ i, 2 ≤ i → w'.dev.control.testBit i = false)) :=
  ⟨by decide, uart_init_control_is_three 115200 (by decide)⟩


/-! ## The polling discipline -/

theorem chainOK_get {α : Type} (ok : Option α → α → Bool) :
    ∀ (xs : List α) (p : Option α), chainOK ok p xs = true →
      ∀ i a, xs[i]? = some a → ok (if i = 0 then p else xs[i - 1]?) a = true := by
  intro xs
  induction xs with
  | nil => intro p _ i a h; simp at h
  | cons x rest ih =>
    intro p h i a hi
    simp only [chainOK, Bool.and_eq_true] at h
    cases i with
    | zero =>
      simp only [List.getElem?_cons_zero, Option.some.injEq] at hi
      subst hi
      simpa using h.1
    | succ j =>
      simp only [List.getElem?_cons_succ] at hi
      have := ih (some x) h.2 j a hi
      cases j with
      | zero => simpa using this
      | succ k => simpa using this

theorem pollDiscipline_of_chainOK (tr : List Access)
    (h : chainOK guardOK none tr = true) : PollDiscipline tr := by
  constructor
  · intro i v hi
    have hg := chainOK_get guardOK tr none h i _ hi
    cases i with
    | zero => simp [guardOK] at hg
    | succ j =>
      simp only [Nat.succ_ne_zero, if_false, Nat.add_sub_cancel] at hg
      refine ⟨j, ?_⟩
      cases hj : tr[j]? with
      | none => rw [hj] at hg; simp [guardOK] at hg
      | some a =>
        rw [hj] at hg
        cases a with
        | write r x => simp [guardOK] at hg
        | read r st =>
          cases r <;> simp [guardOK] at hg
          exact ⟨st, rfl, rfl, hg⟩
  · intro i v hi
    have hg := chainOK_get guardOK tr none h i _ hi
    cases i with
    | zero => simp [guardOK] at hg
    | succ j =>
      simp only [Nat.succ_ne_zero, if_false, Nat.add_sub_cancel] at hg
      refine ⟨j, ?_⟩
      cases hj : tr[j]? with
      | none => rw [hj] at hg; simp [guardOK] at hg
      | some a =>
        rw [hj] at hg
        cases a with
        | write r x => simp [guardOK] at hg
        | read r st =>
          cases r <;> simp [guardOK] at hg
          exact ⟨st, rfl, rfl, hg⟩

theorem chainOK_polls (p : Option Access) (vs : List Nat) :
    chainOK guardOK p (vs.map (Access.read Reg.state)) = true := by
  induction vs generalizing p with
  | nil => rfl
  | cons v rest ih => simp [chainOK, guardOK, ih]

theorem lastOr_append {α : Type} : ∀ (xs ys : List α) (p : Option α),
    lastOr p (xs ++ ys) = lastOr (lastOr p xs) ys := by
  intro xs
  induction xs with
  | nil => intro ys p; rfl
  | cons a rest ih => intro ys p; simp [lastOr, ih]

theorem wait_transmitter_world {σ : Type} (d : Device σ) (n : Nat) (w : World σ) :
    ∃ vs : List Nat,
      (wait_transmitter d n w).world.trace = w.trace ++ vs.map (Access.read Reg.state) := by
  obtain ⟨vs, h, _⟩ := wait_transmitter_shape d n w
  exact ⟨vs, h⟩

theorem wait_transmitter_done {σ : Type} (d : Device σ) (n : Nat) (w : World σ)
    (a : Unit) (n' : Nat) (w' : World σ) (h : wait_transmitter d n w = Outcome.done a n' w') :
    ∃ vs v, w'.trace = w.trace ++ (vs ++ [v]).map (Access.read Reg.state) ∧
      v.testBit UART_STATE_TX_BF = false ∧ n' < n := by
  obtain ⟨vs, h1, _, h3, _⟩ := wait_transmitter_shape d n w
  obtain ⟨e1, vs', v, e2, e3⟩ := h3 a n' w' h
  rw [h] at h1
  refine ⟨vs', v, by rw [← e2]; exact h1, e3, ?_⟩
  subst e2
  simp at e1
  omega

theorem wait_receiver_world {σ : Type} (d : Device σ) (n : Nat) (w : World σ) :
    ∃ vs : List Nat,
      (wait_receiver d n w).world.trace = w.trace ++ vs.map (Access.read Reg.state) := by
  obtain ⟨vs, h, _⟩ := wait_receiver_shape d n w
  exact ⟨vs, h⟩

theorem wait_receiver_done {σ : Type} (d : Device σ) (n : Nat) (w : World σ)
    (a : Unit) (n' : Nat) (w' : World σ) (h : wait_receiver d n w = Outcome.done a n' w') :
    ∃ vs v, w'.trace = w.trace ++ (vs ++ [v]).map (Access.read Reg.state) ∧
      v.testBit UART_STATE_RX_BF = true ∧ n' < n := by
  obtain ⟨vs, h1, _, h3, _⟩ := wait_receiver_shape d n w
  obtain ⟨e1, vs', v, e2, e3⟩ := h3 a n' w' h
  rw [h] at h1
  refine ⟨vs', v, by rw [← e2]; exact h1, e3, ?_⟩
  subst e2
  simp at e1
  omega

/-- The tail of `uart_putc`: wait for the transmitter, then store. -/
theorem send_disciplined {σ : Type} (d : Device σ) (n : Nat) (w : World σ) (r : Int)
    (v : Nat) (h : chainOK guardOK none w.trace = true) :
    chainOK guardOK none ((wait_transmitter d n w).bind fun _ n2 w2 =>
      Outcome.done r n2 (store d Reg.data v w2)).world.trace = true := by
  cases hw : wait_transmitter d n w with
  | spinning w1 =>
    obtain ⟨vs, hvs⟩ := wait_transmitter_world d n w
    rw [hw] at hvs
    simp only [Outcome.bind_spinning, Outcome.world] at hvs ⊢
    rw [hvs, chainOK_append, h, chainOK_polls]
    rfl
  | done a n1 w1 =>
    obtain ⟨vs, x, e1, e2, _⟩ := wait_transmitter_done d n w a n1 w1 hw
    simp only [Outcome.bind_done, Outcome.world, store_trace]
    rw [e1, chainOK_append, chainOK_append, h, chainOK_polls, lastOr_append,
      List.map_append, lastOr_append]
    simp [chainOK, guardOK, lastOr, e2]

theorem uart_putc_other {σ : Type} (d : Device σ) (n : Nat) (c : Int) (hc : c ≠ LF)
    (w : World σ) :
    uart_putc d (n + 1) c w = (wait_transmitter d n w).bind fun _ n2 w2 =>
      Outcome.done ((toU8 c : Nat) : Int) n2 (store d Reg.data (toU32 c) w2) := by
  simp [uart_putc, hc]

theorem uart_putc_lf {σ : Type} (d : Device σ) (n : Nat) (w : World σ) :
    uart_putc d (n + 1) LF w = (uart_putc d n CR w).bind fun _ n1 w1 =>
      (wait_transmitter d n1 w1).bind fun _ n2 w2 =>
        Outcome.done 10 n2 (store d Reg.data 10 w2) := by
  rw [uart_putc]
  simp only [if_true, toU8_LF, toU32_LF]
  cases uart_putc d n CR w <;> simp

theorem uart_putc_disciplined {σ : Type} (d : Device σ) (n : Nat) (c : Int) (w : World σ)
    (h : chainOK guardOK none w.trace = true) :
    chainOK guardOK none (uart_putc d n c w).world.trace = true := by
  have hother : ∀ (m : Nat) (x : Int) (u : World σ), x ≠ LF →
      chainOK guardOK none u.trace = true →
      chainOK guardOK none (uart_putc d m x u).world.trace = true := by
    intro m x u hx hu
    cases m with
    | zero => simpa [uart_putc, Outcome.world] using hu
    | succ k =>
      rw [uart_putc_other d k x hx u]
      exact send_disciplined d k u _ _ hu
  by_cases hc : c = LF
  · subst hc
    cases n with
    | zero => simpa [uart_putc, Outcome.world] using h
    | succ k =>
      rw [uart_putc_lf]
      have hin := hother k CR w (by decide) h
      cases hi : uart_putc d k CR w with
      | spinning w1 =>
        rw [hi] at hin
        simpa [Outcome.world] using hin
      | done a n1 w1 =>
        rw [hi] at hin
        simp only [Outcome.bind_done]
        exact send_disciplined d n1 w1 _ _ (by simpa [Outcome.world] using hin)
  · exact hother n c w hc h

theorem uart_getc_disciplined {σ : Type} (cs : Bool) (d : Device σ) (n : Nat) (w : World σ)
    (h : chainOK guardOK none w.trace = true) :
    chainOK guardOK none (uart_getc cs d n w).world.trace = true := by
  unfold uart_getc
  cases hw : wait_receiver d n w with
  | spinning w1 =>
    obtain ⟨vs, hvs⟩ := wait_receiver_world d n w
    rw [hw] at hvs
    simp only [Outcome.bind_spinning, Outcome.world] at hvs ⊢
    rw [hvs, chainOK_append, h, chainOK_polls]
    rfl
  | done a n1 w1 =>
    obtain ⟨vs, x, e1, e2, _⟩ := wait_receiver_done d n w a n1 w1 hw
    simp only [Outcome.bind_done]
    have hrd : chainOK guardOK none (afterRead d Reg.data w1).trace = true := by
      simp only [afterRead_trace]
      rw [e1, chainOK_append, chainOK_append, h, chainOK_polls, lastOr_append,
        List.map_append, lastOr_append]
      simp [chainOK, guardOK, lastOr, e2]
    have hp := uart_putc_disciplined d n1
      (toChar cs ((if peek d Reg.data w1 % 256 = 13 then 10 else peek d Reg.data w1 % 256 : Nat) : Int))
      (afterRead d Reg.data w1) hrd
    cases hq : uart_putc d n1
      (toChar cs ((if peek d Reg.data w1 % 256 = 13 then 10 else peek d Reg.data w1 % 256 : Nat) : Int))
      (afterRead d Reg.data w1) with
    | spinning w2 =>
      rw [hq] at hp
      simpa [Outcome.world] using hp
    | done r n2 w2 =>
      rw [hq] at hp
      simpa [Outcome.world] using hp

/-- C6: in the log of register accesses of any call of `uart_putc` or
`uart_getc`, on any hardware and whether or not the call has returned within
its fuel, every write to `data` stands immediately after a read of `state`
that showed bit 0 (transmit-buffer-full) clear, and every read of `data`
stands immediately after a read of `state` that showed bit 1
(receive-buffer-full) set; no other access comes between the poll and the
data access. -/
theorem data_access_follows_its_poll {σ : Type} (cs : Bool) (d : Device σ) (n : Nat)
    (c : Int) (s : σ) :
    PollDiscipline (uart_putc d n c ⟨s, []⟩).world.trace ∧
    PollDiscipline (uart_getc cs d n ⟨s, []⟩).world.trace :=
  ⟨pollDiscipline_of_chainOK _ (uart_putc_disciplined d n c ⟨s, []⟩ rfl),
   pollDiscipline_of_chainOK _ (uart_getc_disciplined cs d n ⟨s, []⟩ rfl)⟩


/-! ## Receive-side translation of line ends -/

theorem count_lf_map_crToLf (bs : List Nat) :
    (bs.map fun b => ((crToLf b : Nat) : Int)).count 10 = bs.count 13 + bs.count 10 := by
  induction bs with
  | nil => rfl
  | cons b rest ih =>
    simp only [List.map_cons, List.count_cons, ih]
    by_cases h13 : b = 13
    · subst h13; simp [crToLf]; omega
    · by_cases h10 : b = 10
      · subst h10; simp [crToLf]; omega
      · have h1 : ((crToLf b : Nat) : Int) ≠ 10 := by
          unfold crToLf; rw [if_neg h13]; exact_mod_cast h10
        simp [h1, h13, h10]

/-- C7, as stated, fails: with carriage-return then line-feed pending,
two calls of `uart_getc` consume the input and return two line-feeds. -/
theorem crlf_input_returns_two_line_feeds :
    (run false simUart [Call.getc, Call.getc] 10 (simWith [13, 10])).value
      = some [10, 10] ∧
    (run false simUart [Call.getc, Call.getc] 10 (simWith [13, 10])).world.dev.rx = [] ∧
    ¬ (∃ rs, (run false simUart [Call.getc, Call.getc] 10 (simWith [13, 10])).value
      = some rs ∧ rs.count 10 = 1) := by
  refine ⟨by decide, by decide, ?_⟩
  rintro ⟨rs, h1, h2⟩
  have h : (run false simUart [Call.getc, Call.getc] 10 (simWith [13, 10])).value
      = some [10, 10] := by decide
  rw [h] at h1
  cases h1
  revert h2
  decide

/-- C7, amended: the receive side turns each carriage-return into one
line-feed and changes nothing else.  Calling `uart_getc` until the input
`bs` of the simulated UART is consumed returns `bs` with each
carriage-return replaced by a line-feed, so the returned characters contain
as many line-feeds as `bs` has carriage-returns and line-feeds together; a
lone carriage-return yields exactly one line-feed. -/
theorem uart_getc_line_feed_count (cs : Bool) (bs : List Nat) (hb : ∀ b ∈ bs, b < 256)
    (n : Nat) :
    (∃ rs n' w', run cs simUart (List.replicate bs.length Call.getc) (5 * bs.length + n)
        (simWith bs) = Outcome.done rs n' w' ∧
      w'.dev.rx = [] ∧
      rs = (bs.map fun b => ((crToLf b : Nat) : Int)) ∧
      rs.count 10 = bs.count 13 + bs.count 10) ∧
    (run cs simUart [Call.getc] 5 (simWith [13])).value = some [10] ∧
    (run cs simUart [Call.getc] 5 (simWith [13])).world.dev.rx = [] := by
  refine ⟨?_, ?_, ?_⟩
  · obtain ⟨n', tr', h1, _, _⟩ := run_getc_sim cs bs hb n 0 0 0 []
    exact ⟨_, n', _, h1, rfl, rfl, count_lf_map_crToLf bs⟩
  · cases cs <;> decide
  · cases cs <;> decide

theorem uart_getc_line_feed_count_witness :
    (∀ b ∈ [13, 10], b < 256) ∧
    ((∃ rs n' w', run false simUart (List.replicate [13, 10].length Call.getc)
        (5 * [13, 10].length + 0) (simWith [13, 10]) = Outcome.done rs n' w' ∧
      w'.dev.rx = [] ∧
      rs = ([13, 10].map fun b => ((crToLf b : Nat) : Int)) ∧
      rs.count 10 = [13, 10].count 13 + [13, 10].count 10) ∧
    (run false simUart [Call.getc] 5 (simWith [13])).value = some [10] ∧
    (run false simUart [Call.getc] 5 (simWith [13])).world.dev.rx = []) :=
  ⟨by decide, uart_getc_line_feed_count false [13, 10] (by decide) 0⟩

/-! ## What a returning `uart_putc` has done -/

@[simp] theorem dataWrites_polls (vs : List Nat) :
    dataWrites (vs.map (Access.read Reg.state)) = [] := by
  induction vs with
  | nil => rfl
  | cons v rest ih => simp [ih]

@[simp] theorem dataReads_polls (vs : List Nat) :
    dataReads (vs.map (Access.read Reg.state)) = [] := by
  induction vs with
  | nil => rfl
  | cons v rest ih => simp [ih]

theorem send_done {σ : Type} (d : Device σ) (n : Nat) (w : World σ) (r0 : Int) (v : Nat)
    (r : Int) (n' : Nat) (w' : World σ)
    (h : ((wait_transmitter d n w).bind fun _ n2 w2 =>
      Outcome.done r0 n2 (store d Reg.data v w2)) = Outcome.done r n' w') :
    r = r0 ∧ n' < n ∧ dataWrites w'.trace = dataWrites w.trace ++ [v] ∧
      dataReads w'.trace = dataReads w.trace := by
  cases hw : wait_transmitter d n w with
  | spinning w1 => rw [hw] at h; simp at h
  | done a n1 w1 =>
    rw [hw] at h
    simp only [Outcome.bind_done, Outcome.done.injEq] at h
    obtain ⟨vs, x, e1, _, e3⟩ := wait_transmitter_done d n w a n1 w1 hw
    obtain ⟨h1, h2, h3⟩ := h
    subst h1 h2 h3
    refine ⟨rfl, e3, ?_, ?_⟩
    · simp [e1]
    · simp [e1]

/-- A call of `uart_putc` that returns has returned its argument as an
unsigned byte and has written to `data` the argument, preceded by a
carriage-return when the argument is line-feed; it has not read `data`. -/
theorem uart_putc_done {σ : Type} (d : Device σ) (n : Nat) (c : Int) (w : World σ)
    (r : Int) (n' : Nat) (w' : World σ) (h : uart_putc d n c w = Outcome.done r n' w') :
    r = ((toU8 c : Nat) : Int) ∧ n' < n ∧
      dataWrites w'.trace = dataWrites w.trace ++ (if c = LF then [13, 10] else [toU32 c]) ∧
      dataReads w'.trace = dataReads w.trace := by
  have hother : ∀ (m : Nat) (x : Int) (u : World σ) (r1 : Int) (m' : Nat) (u' : World σ),
      x ≠ LF → uart_putc d m x u = Outcome.done r1 m' u' →
      r1 = ((toU8 x : Nat) : Int) ∧ m' < m ∧
        dataWrites u'.trace = dataWrites u.trace ++ [toU32 x] ∧
        dataReads u'.trace = dataReads u.trace := by
    intro m x u r1 m' u' hx hd
    cases m with
    | zero => simp [uart_putc] at hd
    | succ k =>
      rw [uart_putc_other d k x hx u] at hd
      obtain ⟨a1, a2, a3, a4⟩ := send_done d k u _ _ r1 m' u' hd
      exact ⟨a1, by omega, a3, a4⟩
  by_cases hc : c = LF
  · subst hc
    cases n with
    | zero => simp [uart_putc] at h
    | succ k =>
      rw [uart_putc_lf] at h
      cases hi : uart_putc d k CR w with
      | spinning w1 => rw [hi] at h; simp at h
      | done a n1 w1 =>
        rw [hi] at h
        simp only [Outcome.bind_done] at h
        obtain ⟨_, b2, b3, b4⟩ := hother k CR w a n1 w1 (by decide) hi
        obtain ⟨a1, a2, a3, a4⟩ := send_done d n1 w1 _ _ r n' w' h
        refine ⟨by rw [a1, toU8_LF]; rfl, by omega, ?_, ?_⟩
        · rw [a3, b3, toU32_CR]; simp
        · rw [a4, b4]
  · obtain ⟨a1, a2, a3, a4⟩ := hother n c w r n' w' hc h
    exact ⟨a1, a2, by rw [a3, if_neg hc], a4⟩

/-- C8: whenever `uart_putc` returns, on any hardware, the integer returned
is the argument reduced to an unsigned byte (`c` modulo 256), so it lies in
0..255 and is not negative, also for a `char` with the high bit set (a
negative value when plain `char` is signed); for line-feed the value
returned is 10, not the 13 of the inner call. -/
theorem uart_putc_returns_unsigned_byte {σ : Type} (d : Device σ) (n : Nat) (c : Int)
    (w : World σ) (r : Int) (n' : Nat) (w' : World σ)
    (h : uart_putc d n c w = Outcome.done r n' w') :
    r = c % 256 ∧ 0 ≤ r ∧ r ≤ 255 ∧ (c = LF → r = 10 ∧ r ≠ 13) := by
  obtain ⟨h1, _⟩ := uart_putc_done d n c w r n' w' h
  have h2 : r = c % 256 := by
    rw [h1]; unfold toU8; omega
  refine ⟨h2, by omega, by omega, ?_⟩
  intro hc
  rw [h2, hc]
  decide

theorem uart_putc_returns_unsigned_byte_witness :
    uart_putc (constDev 0 0) 2 (-1) ⟨(), []⟩ = Outcome.done 255 0
      ⟨(), [Access.read Reg.state 0, Access.write Reg.data 4294967295]⟩ ∧
    ((255 : Int) = (-1) % 256 ∧ (0 : Int) ≤ 255 ∧ (255 : Int) ≤ 255 ∧
      ((-1 : Int) = LF → (255 : Int) = 10 ∧ (255 : Int) ≠ 13)) :=
  ⟨rfl, uart_putc_returns_unsigned_byte (constDev 0 0) 2 (-1) ⟨(), []⟩ 255 0
    ⟨(), [Access.read Reg.state 0, Access.write Reg.data 4294967295]⟩ rfl⟩


/-! ## Hardware that never shows the awaited condition -/

theorem wait_transmitter_stuck {σ : Type} (d : Device σ)
    (hfull : ∀ s, (d.read s Reg.state).1.testBit UART_STATE_TX_BF = true) :
    ∀ (n : Nat) (w : World σ), ∃ w', wait_transmitter d n w = Outcome.spinning w' := by
  intro n
  induction n with
  | zero => intro w; exact ⟨w, rfl⟩
  | succ k ih =>
    intro w
    have hb : (peek d Reg.state w) &&& (1 <<< UART_STATE_TX_BF) ≠ 0 :=
      (and_bit_ne_zero _ _).2 (hfull w.dev)
    rw [wait_transmitter, if_pos hb]
    exact ih _

theorem wait_receiver_stuck {σ : Type} (d : Device σ)
    (hempty : ∀ s, (d.read s Reg.state).1.testBit UART_STATE_RX_BF = false) :
    ∀ (n : Nat) (w : World σ), ∃ w', wait_receiver d n w = Outcome.spinning w' := by
  intro n
  induction n with
  | zero => intro w; exact ⟨w, rfl⟩
  | succ k ih =>
    intro w
    have hb : (peek d Reg.state w) &&& (1 <<< UART_STATE_RX_BF) = 0 :=
      (and_bit_eq_zero _ _).2 (hempty w.dev)
    rw [wait_receiver, if_pos hb]
    exact ih _

theorem uart_putc_stuck {σ : Type} (d : Device σ)
    (hfull : ∀ s, (d.read s Reg.state).1.testBit UART_STATE_TX_BF = true)
    (n : Nat) (c : Int) (w : World σ) :
    ∃ (w' : World σ) (vs : List Nat), uart_putc d n c w = Outcome.spinning w' ∧
      w'.trace = w.trace ++ vs.map (Access.read Reg.state) := by
  have hother : ∀ (m : Nat) (x : Int) (u : World σ), x ≠ LF →
      ∃ (u' : World σ) (vs : List Nat), uart_putc d m x u = Outcome.spinning u' ∧
        u'.trace = u.trace ++ vs.map (Access.read Reg.state) := by
    intro m x u hx
    cases m with
    | zero => exact ⟨u, [], rfl, by simp⟩
    | succ k =>
      obtain ⟨u', hu⟩ := wait_transmitter_stuck d hfull k u
      obtain ⟨vs, hvs⟩ := wait_transmitter_world d k u
      rw [hu] at hvs
      exact ⟨u', vs, by rw [uart_putc_other d k x hx u, hu]; rfl, hvs⟩
  by_cases hc : c = LF
  · subst hc
    cases n with
    | zero => exact ⟨w, [], rfl, by simp⟩
    | succ k =>
      obtain ⟨u', vs, h1, h2⟩ := hother k CR w (by decide)
      exact ⟨u', vs, by rw [uart_putc_lf, h1]; rfl, h2⟩
  · exact hother n c w hc

/-- C9: against hardware that never shows the awaited condition the call
never returns and never touches `data`.  If the transmit-buffer-full bit is
set at every poll, then for every fuel `n` (number of steps) and every
character `c`, `uart_putc` is still running after `n` steps and everything it
has done is to read `state`, so it has written nothing to `data`.  If the
receive-buffer-full bit is clear at every poll, then for every `n`,
`uart_getc` is still running after `n` steps and everything it has done is to
read `state`, so it has read nothing from `data`. -/
theorem stuck_hardware_blocks_forever {σ τ : Type} (cs : Bool) (d1 : Device σ)
    (d2 : Device τ)
    (hfull : ∀ s, (d1.read s Reg.state).1.testBit UART_STATE_TX_BF = true)
    (hempty : ∀ s, (d2.read s Reg.state).1.testBit UART_STATE_RX_BF = false) :
    (∀ (n : Nat) (c : Int) (w : World σ),
      (uart_putc d1 n c w).value = none ∧
      (∃ vs : List Nat, (uart_putc d1 n c w).world.trace = w.trace ++ vs.map (Access.read Reg.state)) ∧
      dataWrites (uart_putc d1 n c w).world.trace = dataWrites w.trace) ∧
    (∀ (n : Nat) (w : World τ),
      (uart_getc cs d2 n w).value = none ∧
      (∃ vs : List Nat, (uart_getc cs d2 n w).world.trace = w.trace ++ vs.map (Access.read Reg.state)) ∧
      dataReads (uart_getc cs d2 n w).world.trace = dataReads w.trace ∧
      dataWrites (uart_getc cs d2 n w).world.trace = dataWrites w.trace) := by
  refine ⟨?_, ?_⟩
  · intro n c w
    obtain ⟨w', vs, h1, h2⟩ := uart_putc_stuck d1 hfull n c w
    rw [h1]
    exact ⟨rfl, ⟨vs, h2⟩, by simp [Outcome.world, h2]⟩
  · intro n w
    obtain ⟨w', hw⟩ := wait_receiver_stuck d2 hempty n w
    obtain ⟨vs, hvs⟩ := wait_receiver_world d2 n w
    rw [hw] at hvs
    have hg : uart_getc cs d2 n w = Outcome.spinning w' := by
      unfold uart_getc; rw [hw]; rfl
    rw [hg]
    simp only [Outcome.world] at hvs ⊢
    exact ⟨rfl, ⟨vs, hvs⟩, by simp [hvs], by simp [hvs]⟩

theorem stuck_hardware_blocks_forever_witness :
    (∀ s, ((constDev 1 0).read s Reg.state).1.testBit UART_STATE_TX_BF = true) ∧
    (∀ s, ((constDev 0 0).read s Reg.state).1.testBit UART_STATE_RX_BF = false) ∧
    ((∀ (n : Nat) (c : Int) (w : World Unit),
      (uart_putc (constDev 1 0) n c w).value = none ∧
      (∃ vs : List Nat, (uart_putc (constDev 1 0) n c w).world.trace =
        w.trace ++ vs.map (Access.read Reg.state)) ∧
      dataWrites (uart_putc (constDev 1 0) n c w).world.trace = dataWrites w.trace) ∧
    (∀ (n : Nat) (w : World Unit),
      (uart_getc false (constDev 0 0) n w).value = none ∧
      (∃ vs : List Nat, (uart_getc false (constDev 0 0) n w).world.trace =
        w.trace ++ vs.map (Access.read Reg.state)) ∧
      dataReads (uart_getc false (constDev 0 0) n w).world.trace = dataReads w.trace ∧
      dataWrites (uart_getc false (constDev 0 0) n w).world.trace = dataWrites w.trace)) :=
  ⟨fun s => by rw [constDev_read_state]; decide,
   fun s => by rw [constDev_read_state]; decide,
   stuck_hardware_blocks_forever false (constDev 1 0) (constDev 0 0)
     (fun s => by rw [constDev_read_state]; decide)
     (fun s => by rw [constDev_read_state]; decide)⟩

/-! ## Line-feeds on the wire -/

theorem lfAfterCr_of_chainOK (ws : List Nat) (h : chainOK lfOK none ws = true) :
    LfAfterCr ws := by
  intro i hi
  have hg := chainOK_get lfOK ws none h i 10 hi
  cases i with
  | zero => simp [lfOK] at hg
  | succ j =>
    simp only [Nat.succ_ne_zero, if_false, Nat.add_sub_cancel] at hg
    exact ⟨j, rfl, by simpa [lfOK] using hg⟩

theorem chainOK_lf_append_crlf (p : Option Nat) (ws : List Nat)
    (h : chainOK lfOK p ws = true) : chainOK lfOK p (ws ++ [13, 10]) = true := by
  rw [chainOK_append, h]
  simp [chainOK, lfOK]

theorem chainOK_lf_append_other (p : Option Nat) (ws : List Nat) (x : Nat) (hx : x ≠ 10)
    (h : chainOK lfOK p ws = true) : chainOK lfOK p (ws ++ [x]) = true := by
  rw [chainOK_append, h]
  simp [chainOK, lfOK, hx]

theorem uart_putc_keeps_lf_after_cr {σ : Type} (cs : Bool) (d : Device σ) (n : Nat)
    (c : Int) (hc : isChar cs c) (w : World σ) (r : Int) (n' : Nat) (w' : World σ)
    (h : uart_putc d n c w = Outcome.done r n' w')
    (hw : chainOK lfOK none (dataWrites w.trace) = true) :
    chainOK lfOK none (dataWrites w'.trace) = true := by
  obtain ⟨_, _, h3, _⟩ := uart_putc_done d n c w r n' w' h
  rw [h3]
  by_cases h10 : c = LF
  · rw [if_pos h10]; exact chainOK_lf_append_crlf _ _ hw
  · rw [if_neg h10]
    exact chainOK_lf_append_other _ _ _ (fun e => h10 ((toU32_eq_ten cs c hc).1 e)) hw

theorem uart_getc_keeps_lf_after_cr {σ : Type} (cs : Bool) (d : Device σ) (n : Nat)
    (w : World σ) (r : Int) (n' : Nat) (w' : World σ)
    (h : uart_getc cs d n w = Outcome.done r n' w')
    (hw : chainOK lfOK none (dataWrites w.trace) = true) :
    chainOK lfOK none (dataWrites w'.trace) = true := by
  unfold uart_getc at h
  cases hwr : wait_receiver d n w with
  | spinning w1 => rw [hwr] at h; simp at h
  | done a n1 w1 =>
    rw [hwr] at h
    simp only [Outcome.bind_done] at h
    obtain ⟨vs, x, e1, _, _⟩ := wait_receiver_done d n w a n1 w1 hwr
    cases hp : uart_putc d n1
      (toChar cs ((if peek d Reg.data w1 % 256 = 13 then 10 else peek d Reg.data w1 % 256 : Nat) : Int))
      (afterRead d Reg.data w1) with
    | spinning w2 => rw [hp] at h; simp at h
    | done r2 n2 w2 =>
      rw [hp] at h
      simp only [Outcome.bind_done, Outcome.done.injEq] at h
      obtain ⟨_, _, h3⟩ := h
      subst h3
      refine uart_putc_keeps_lf_after_cr cs d n1 _ (toChar_isChar cs _) _ r2 n2 w2 hp ?_
      simpa [e1] using hw

theorem run_keeps_lf_after_cr {σ : Type} (cs : Bool) (d : Device σ) :
    ∀ (calls : List Call), (∀ c, Call.putc c ∈ calls → isChar cs c) →
    ∀ (n : Nat) (w : World σ) (rs : List Int) (n' : Nat) (w' : World σ),
      run cs d calls n w = Outcome.done rs n' w' →
      chainOK lfOK none (dataWrites w.trace) = true →
      chainOK lfOK none (dataWrites w'.trace) = true := by
  intro calls
  induction calls with
  | nil =>
    intro _ n w rs n' w' h hw
    simp only [run, Outcome.done.injEq] at h
    obtain ⟨_, _, h3⟩ := h
    subst h3
    exact hw
  | cons k ks ih =>
    intro hargs n w rs n' w' h hw
    have hks : ∀ c, Call.putc c ∈ ks → isChar cs c := fun c hc => hargs c (by simp [hc])
    simp only [run] at h
    cases k with
    | putc c =>
      simp only at h
      cases h1 : uart_putc d n c w with
      | spinning w1 => rw [h1] at h; simp at h
      | done r1 n1 w1 =>
        rw [h1] at h
        simp only [Outcome.bind_done] at h
        have hw1 := uart_putc_keeps_lf_after_cr cs d n c (hargs c (by simp)) w r1 n1 w1 h1 hw
        cases h2 : run cs d ks n1 w1 with
        | spinning w2 => rw [h2] at h; simp at h
        | done rs2 n2 w2 =>
          rw [h2] at h
          simp only [Outcome.bind_done, Outcome.done.injEq] at h
          obtain ⟨_, _, h3⟩ := h
          subst h3
          exact ih hks n1 w1 rs2 n2 w2 h2 hw1
    | getc =>
      simp only at h
      cases h1 : uart_getc cs d n w with
      | spinning w1 => rw [h1] at h; simp at h
      | done r1 n1 w1 =>
        rw [h1] at h
        simp only [Outcome.bind_done] at h
        have hw1 := uart_getc_keeps_lf_after_cr cs d n w r1 n1 w1 h1 hw
        cases h2 : run cs d ks n1 w1 with
        | spinning w2 => rw [h2] at h; simp at h
        | done rs2 n2 w2 =>
          rw [h2] at h
          simp only [Outcome.bind_done, Outcome.done.injEq] at h
          obtain ⟨_, _, h3⟩ := h
          subst h3
          exact ih hks n1 w1 rs2 n2 w2 h2 hw1

/-- C10: on any hardware, for every finite sequence of `uart_putc` and
`uart_getc` calls (any `char` arguments, any received words) that all return,
every word 10 (line-feed) in the sequence of words written to `data` is
immediately preceded in that sequence by the word 13 (carriage-return). -/
theorem every_lf_follows_cr {σ : Type} (cs : Bool) (d : Device σ) (calls : List Call)
    (hargs : ∀ c, Call.putc c ∈ calls → isChar cs c) (n : Nat) (s : σ) (rs : List Int)
    (hret : (run cs d calls n ⟨s, []⟩).value = some rs) :
    LfAfterCr (dataWrites (run cs d calls n ⟨s, []⟩).world.trace) := by
  cases h : run cs d calls n ⟨s, []⟩ with
  | spinning w1 => rw [h] at hret; simp [Outcome.value] at hret
  | done rs1 n1 w1 =>
    exact lfAfterCr_of_chainOK _
      (run_keeps_lf_after_cr cs d calls hargs n ⟨s, []⟩ rs1 n1 w1 h rfl)

theorem every_lf_follows_cr_witness :
    (∀ c, Call.putc c ∈ [Call.putc 10, Call.getc, Call.putc 65] → isChar false c) ∧
    (run false simUart [Call.putc 10, Call.getc, Call.putc 65] 20 (simWith [13])).value
      = some [10, 10, 65] ∧
    LfAfterCr (dataWrites (run false simUart [Call.putc 10, Call.getc, Call.putc 65] 20
      (simWith [13])).world.trace) := by
  have hargs : ∀ c, Call.putc c ∈ [Call.putc 10, Call.getc, Call.putc 65] →
      isChar false c := by
    intro c hc
    simp at hc
    rcases hc with rfl | rfl <;> decide
  exact ⟨hargs, by decide, every_lf_follows_cr false simUart
    [Call.putc 10, Call.getc, Call.putc 65] hargs 20 _ [10, 10, 65] (by decide)⟩

/-! ## What the primitives leave alone -/

theorem wait_transmitter_preserves {σ : Type} (d : Device σ) (P : World σ → Prop)
    (hrs : ∀ w, P w → P (afterRead d Reg.state w)) :
    ∀ (n : Nat) (w : World σ), P w → P (wait_transmitter d n w).world := by
  intro n
  induction n with
  | zero => intro w hw; exact hw
  | succ k ih =>
    intro w hw
    rw [wait_transmitter]
    split
    · exact ih _ (hrs w hw)
    · exact hrs w hw

theorem wait_receiver_preserves {σ : Type} (d : Device σ) (P : World σ → Prop)
    (hrs : ∀ w, P w → P (afterRead d Reg.state w)) :
    ∀ (n : Nat) (w : World σ), P w → P (wait_receiver d n w).world := by
  intro n
  induction n with
  | zero => intro w hw; exact hw
  | succ k ih =>
    intro w hw
    rw [wait_receiver]
    split
    · exact ih _ (hrs w hw)
    · exact hrs w hw

theorem send_preserves {σ : Type} (d : Device σ) (P : World σ → Prop)
    (hrs : ∀ w, P w → P (afterRead d Reg.state w))
    (hwd : ∀ v w, P w → P (store d Reg.data v w))
    (n : Nat) (w : World σ) (r : Int) (v : Nat) (hw : P w) :
    P ((wait_transmitter d n w).bind fun _ n2 w2 =>
      Outcome.done r n2 (store d Reg.data v w2)).world := by
  have h := wait_transmitter_preserves d P hrs n w hw
  cases hq : wait_transmitter d n w with
  | spinning w1 => rw [hq] at h; exact h
  | done a n1 w1 => rw [hq] at h; exact hwd v w1 h

/-- Any property of worlds kept by a read of `state` and by a write of
`data` is kept by `uart_putc`, whether or not it returns. -/
theorem uart_putc_preserves {σ : Type} (d : Device σ) (P : World σ → Prop)
    (hrs : ∀ w, P w → P (afterRead d Reg.state w))
    (hwd : ∀ v w, P w → P (store d Reg.data v w))
    (n : Nat) (c : Int) (w : World σ) (hw : P w) : P (uart_putc d n c w).world := by
  have hother : ∀ (m : Nat) (x : Int) (u : World σ), x ≠ LF → P u →
      P (uart_putc d m x u).world := by
    intro m x u hx hu
    cases m with
    | zero => exact hu
    | succ k =>
      rw [uart_putc_other d k x hx u]
      exact send_preserves d P hrs hwd k u _ _ hu
  by_cases hc : c = LF
  · subst hc
    cases n with
    | zero => exact hw
    | succ k =>
      rw [uart_putc_lf]
      have hin := hother k CR w (by decide) hw
      cases hi : uart_putc d k CR w with
      | spinning w1 => rw [hi] at hin; exact hin
      | done a n1 w1 =>
        rw [hi] at hin
        exact send_preserves d P hrs hwd n1 w1 _ _ hin
  · exact hother n c w hc hw

/-- Any property of worlds kept by a read of `state`, a read of `data` and
a write of `data` is kept by `uart_getc`, whether or not it returns. -/
theorem uart_getc_preserves {σ : Type} (cs : Bool) (d : Device σ) (P : World σ → Prop)
    (hrs : ∀ w, P w → P (afterRead d Reg.state w))
    (hrd : ∀ w, P w → P (afterRead d Reg.data w))
    (hwd : ∀ v w, P w → P (store d Reg.data v w))
    (n : Nat) (w : World σ) (hw : P w) : P (uart_getc cs d n w).world := by
  unfold uart_getc
  have h := wait_receiver_preserves d P hrs n w hw
  cases hq : wait_receiver d n w with
  | spinning w1 => rw [hq] at h; exact h
  | done a n1 w1 =>
    rw [hq] at h
    simp only [Outcome.bind_done]
    have hp := uart_putc_preserves d P hrs hwd n1
      (toChar cs ((if peek d Reg.data w1 % 256 = 13 then 10 else peek d Reg.data w1 % 256 : Nat) : Int))
      (afterRead d Reg.data w1) (hrd w1 h)
    cases hq2 : uart_putc d n1
      (toChar cs ((if peek d Reg.data w1 % 256 = 13 then 10 else peek d Reg.data w1 % 256 : Nat) : Int))
      (afterRead d Reg.data w1) with
    | spinning w2 => rw [hq2] at hp; exact hp
    | done r n2 w2 => rw [hq2] at hp; exact hp

/-- Any property of worlds kept by a read of `state`, a read of `data` and
a write of `data` is kept by every sequence of driver calls. -/
theorem run_preserves {σ : Type} (cs : Bool) (d : Device σ) (P : World σ → Prop)
    (hrs : ∀ w, P w → P (afterRead d Reg.state w))
    (hrd : ∀ w, P w → P (afterRead d Reg.data w))
    (hwd : ∀ v w, P w → P (store d Reg.data v w)) :
    ∀ (calls : List Call) (n : Nat) (w : World σ), P w → P (run cs d calls n w).world := by
  intro calls
  induction calls with
  | nil => intro n w hw; exact hw
  | cons k ks ih =>
    intro n w hw
    have htail : ∀ (o : Outcome Int σ), P o.world →
        P (o.bind fun r n1 w1 =>
          (run cs d ks n1 w1).bind fun rs n2 w2 => Outcome.done (r :: rs) n2 w2).world := by
      intro o ho
      cases o with
      | spinning w1 => exact ho
      | done r n1 w1 =>
        simp only [Outcome.bind_done]
        have h2 := ih n1 w1 ho
        cases hq2 : run cs d ks n1 w1 with
        | spinning w2 => rw [hq2] at h2; exact h2
        | done rs n2 w2 => rw [hq2] at h2; exact h2
    cases k with
    | putc c =>
      simp only [run]
      exact htail _ (uart_putc_preserves d P hrs hwd n c w hw)
    | getc =>
      simp only [run]
      exact htail _ (uart_getc_preserves cs d P hrs hrd hwd n w hw)

theorem uart_init_eq {σ : Type} (d : Device σ) (r : Int) (hr : r ≠ 0) (w : World σ) :
    uart_init d r w = some (store d Reg.control 3
      (store d Reg.bauddiv (toU32 (Int.tdiv CLOCK r)) w)) := by
  simp only [uart_init]
  rw [if_neg hr, control_word]

/-- C11: neither primitive writes `control`, `isr` or `bauddiv`: on any
hardware, everything a sequence of `uart_putc` and `uart_getc` calls adds to
the access log, finished or not, is a read of `state`, a read of `data` or a
write of `data`.  So on the simulated UART, starting from the state produced
by `uart_init` with a nonzero baud rate, after every such sequence and every
fuel bound the control register is 3, the `bauddiv` and `isr` registers are
what `uart_init` left, and bits 2 to 5 of `control` (the interrupt enables)
are 0. -/
theorem primitives_leave_control_alone (cs : Bool) (r : Int) (hr : r ≠ 0) :
    (∀ {σ : Type} (d : Device σ) (calls : List Call) (n : Nat) (w : World σ),
      ∃ ext, (run cs d calls n w).world.trace = w.trace ++ ext ∧
        ∀ a ∈ ext, pollOrData a = true) ∧
    (∀ (s : SimUart) (tr : List Access), ∃ w0, uart_init simUart r ⟨s, tr⟩ = some w0 ∧
      w0.dev.control = 3 ∧
      ∀ (calls : List Call) (n : Nat),
        (run cs simUart calls n w0).world.dev.control = 3 ∧
        (run cs simUart calls n w0).world.dev.bauddiv = w0.dev.bauddiv ∧
        (run cs simUart calls n w0).world.dev.isr = w0.dev.isr ∧
        (run cs simUart calls n w0).world.dev.control.testBit UART_CONTROL_TX_IN_EN = false ∧
        (run cs simUart calls n w0).world.dev.control.testBit UART_CONTROL_RX_IN_EN = false ∧
        (run cs simUart calls n w0).world.dev.control.testBit UART_CONTROL_TX_OV_EN = false ∧
        (run cs simUart calls n w0).world.dev.control.testBit UART_CONTROL_RX_OV_EN
          = false) := by
  refine ⟨?_, ?_⟩
  · intro σ d calls n w
    refine run_preserves cs d
      (fun u => ∃ ext, u.trace = w.trace ++ ext ∧ ∀ a ∈ ext, pollOrData a = true)
      ?_ ?_ ?_ calls n w ⟨[], by simp, by simp⟩
    · rintro u ⟨ext, h1, h2⟩
      refine ⟨ext ++ [Access.read Reg.state (peek d Reg.state u)], by simp [h1], ?_⟩
      intro a ha
      rcases List.mem_append.1 ha with h | h
      · exact h2 a h
      · simp at h; subst h; rfl
    · rintro u ⟨ext, h1, h2⟩
      refine ⟨ext ++ [Access.read Reg.data (peek d Reg.data u)], by simp [h1], ?_⟩
      intro a ha
      rcases List.mem_append.1 ha with h | h
      · exact h2 a h
      · simp at h; subst h; rfl
    · rintro v u ⟨ext, h1, h2⟩
      refine ⟨ext ++ [Access.write Reg.data v], by simp [h1], ?_⟩
      intro a ha
      rcases List.mem_append.1 ha with h | h
      · exact h2 a h
      · simp at h; subst h; rfl
  · intro s tr
    refine ⟨_, uart_init_eq simUart r hr ⟨s, tr⟩, rfl, ?_⟩
    intro calls n
    have h := run_preserves cs simUart
      (fun u => u.dev.control = 3 ∧
        u.dev.bauddiv = toU32 (Int.tdiv CLOCK r) ∧ u.dev.isr = s.isr)
      (fun u hu => hu) (fun u hu => hu) (fun v u hu => hu) calls n
      (store simUart Reg.control 3
        (store simUart Reg.bauddiv (toU32 (Int.tdiv CLOCK r)) ⟨s, tr⟩)) ⟨rfl, rfl, rfl⟩
    obtain ⟨h1, h2, h3⟩ := h
    refine ⟨h1, h2, h3, ?_, ?_, ?_, ?_⟩ <;> rw [h1] <;> decide

theorem primitives_leave_control_alone_witness :
    (115200 : Int) ≠ 0 ∧
    ((∀ {σ : Type} (d : Device σ) (calls : List Call) (n : Nat) (w : World σ),
      ∃ ext, (run false d calls n w).world.trace = w.trace ++ ext ∧
        ∀ a ∈ ext, pollOrData a = true) ∧
    (∀ (s : SimUart) (tr : List Access), ∃ w0,
      uart_init simUart 115200 ⟨s, tr⟩ = some w0 ∧
      w0.dev.control = 3 ∧
      ∀ (calls : List Call) (n : Nat),
        (run false simUart calls n w0).world.dev.control = 3 ∧
        (run false simUart calls n w0).world.dev.bauddiv = w0.dev.bauddiv ∧
        (run false simUart calls n w0).world.dev.isr = w0.dev.isr ∧
        (run false simUart calls n w0).world.dev.control.testBit UART_CONTROL_TX_IN_EN
          = false ∧
        (run false simUart calls n w0).world.dev.control.testBit UART_CONTROL_RX_IN_EN
          = false ∧
        (run false simUart calls n w0).world.dev.control.testBit UART_CONTROL_TX_OV_EN
          = false ∧
        (run false simUart calls n w0).world.dev.control.testBit UART_CONTROL_RX_OV_EN
          = false)) :=
  ⟨by decide, primitives_leave_control_alone false 115200 (by decide)⟩

/-! ## More on initialisation -/

/-- C13: `uart_init` is idempotent.  For every nonzero baud rate, on any
hardware two calls in a row both return and the second performs the same two
writes (the same word to `bauddiv`, then 3 to `control`) as the first; on the
simulated UART, whatever its registers held before, the second call leaves
`bauddiv`, `control` and the whole hardware state as the first call left
them. -/
theorem uart_init_idempotent (r : Int) (hr : r ≠ 0) :
    (∀ {σ : Type} (d : Device σ) (w : World σ), ∃ w1 w2 q,
      uart_init d r w = some w1 ∧ uart_init d r w1 = some w2 ∧
      w1.trace = w.trace ++ [Access.write Reg.bauddiv q, Access.write Reg.control 3] ∧
      w2.trace = w1.trace ++ [Access.write Reg.bauddiv q, Access.write Reg.control 3]) ∧
    (∀ (s : SimUart) (tr : List Access), ∃ w1 w2,
      uart_init simUart r ⟨s, tr⟩ = some w1 ∧ uart_init simUart r w1 = some w2 ∧
      w2.dev.bauddiv = w1.dev.bauddiv ∧ w2.dev.control = w1.dev.control ∧
      w1.dev.control = 3 ∧ w2.dev = w1.dev) := by
  refine ⟨?_, ?_⟩
  · intro σ d w
    refine ⟨_, _, toU32 (Int.tdiv CLOCK r), uart_init_eq d r hr w,
      uart_init_eq d r hr _, ?_, ?_⟩
    · simp
    · simp
  · intro s tr
    exact ⟨_, _, uart_init_eq simUart r hr ⟨s, tr⟩, uart_init_eq simUart r hr _,
      rfl, rfl, rfl, rfl⟩

theorem uart_init_idempotent_witness :
    (9600 : Int) ≠ 0 ∧
    ((∀ {σ : Type} (d : Device σ) (w : World σ), ∃ w1 w2 q,
      uart_init d 9600 w = some w1 ∧ uart_init d 9600 w1 = some w2 ∧
      w1.trace = w.trace ++ [Access.write Reg.bauddiv q, Access.write Reg.control 3] ∧
      w2.trace = w1.trace ++ [Access.write Reg.bauddiv q, Access.write Reg.control 3]) ∧
    (∀ (s : SimUart) (tr : List Access), ∃ w1 w2,
      uart_init simUart 9600 ⟨s, tr⟩ = some w1 ∧ uart_init simUart 9600 w1 = some w2 ∧
      w2.dev.bauddiv = w1.dev.bauddiv ∧ w2.dev.control = w1.dev.control ∧
      w1.dev.control = 3 ∧ w2.dev = w1.dev)) :=
  ⟨by decide, uart_init_idempotent 9600 (by decide)⟩

/-- C17: for every nonzero baud rate `uart_init` returns having made exactly
two register accesses, both writes: first the quotient to `bauddiv`, then 3
to `control`.  It reads no register, so the hardware has seen those two
writes and nothing else; on the simulated UART the pending input and the
`isr` register are unchanged and the `data`, `state` and `isr` registers
read as they did before. -/
theorem uart_init_two_writes (r : Int) (hr : r ≠ 0) :
    (∀ {σ : Type} (d : Device σ) (w : World σ), ∃ w',
      uart_init d r w = some w' ∧
      w'.trace = w.trace ++ [Access.write Reg.bauddiv (toU32 (Int.tdiv CLOCK r)),
        Access.write Reg.control 3] ∧
      w'.dev = d.write (d.write w.dev Reg.bauddiv (toU32 (Int.tdiv CLOCK r)))
        Reg.control 3) ∧
    (∀ (s : SimUart) (tr : List Access), ∃ w',
      uart_init simUart r ⟨s, tr⟩ = some w' ∧
      w'.dev.rx = s.rx ∧ w'.dev.isr = s.isr ∧
      peek simUart Reg.data w' = peek simUart Reg.data ⟨s, tr⟩ ∧
      peek simUart Reg.state w' = peek simUart Reg.state ⟨s, tr⟩ ∧
      peek simUart Reg.isr w' = peek simUart Reg.isr ⟨s, tr⟩ ∧
      dataAccesses w'.trace = dataAccesses tr ∧
      stateReads w'.trace = stateReads tr) := by
  refine ⟨?_, ?_⟩
  · intro σ d w
    exact ⟨_, uart_init_eq d r hr w, by simp, rfl⟩
  · intro s tr
    refine ⟨_, uart_init_eq simUart r hr ⟨s, tr⟩, rfl, rfl, rfl, rfl, rfl, ?_, ?_⟩
    · simp [dataAccesses]
    · simp [stateReads]

theorem uart_init_two_writes_witness :
    (-3 : Int) ≠ 0 ∧
    ((∀ {σ : Type} (d : Device σ) (w : World σ), ∃ w',
      uart_init d (-3) w = some w' ∧
      w'.trace = w.trace ++ [Access.write Reg.bauddiv (toU32 (Int.tdiv CLOCK (-3))),
        Access.write Reg.control 3] ∧
      w'.dev = d.write (d.write w.dev Reg.bauddiv (toU32 (Int.tdiv CLOCK (-3))))
        Reg.control 3) ∧
    (∀ (s : SimUart) (tr : List Access), ∃ w',
      uart_init simUart (-3) ⟨s, tr⟩ = some w' ∧
      w'.dev.rx = s.rx ∧ w'.dev.isr = s.isr ∧
      peek simUart Reg.data w' = peek simUart Reg.data ⟨s, tr⟩ ∧
      peek simUart Reg.state w' = peek simUart Reg.state ⟨s, tr⟩ ∧
      peek simUart Reg.isr w' = peek simUart Reg.isr ⟨s, tr⟩ ∧
      dataAccesses w'.trace = dataAccesses tr ∧
      stateReads w'.trace = stateReads tr)) :=
  ⟨by decide, uart_init_two_writes (-3) (by decide)⟩

/-! ## The value `uart_getc` returns -/

theorem crToLf_bounds (b : Nat) (hb : b < 256) : crToLf b < 256 ∧ crToLf b ≠ 13 := by
  unfold crToLf
  split <;> omega

/-- A call of `uart_getc` that returns has read `data` once and has
returned, and echoed, the translation of the low byte of the word read. -/
theorem uart_getc_done {σ : Type} (cs : Bool) (d : Device σ) (n : Nat) (w : World σ)
    (r : Int) (n' : Nat) (w' : World σ) (h : uart_getc cs d n w = Outcome.done r n' w') :
    ∃ wd : Nat, dataReads w'.trace = dataReads w.trace ++ [wd] ∧
      r = ((crToLf (wd % 256) : Nat) : Int) ∧
      dataWrites w'.trace = dataWrites w.trace ++ echoWords cs (crToLf (wd % 256)) ∧
      n' < n := by
  unfold uart_getc at h
  cases hwr : wait_receiver d n w with
  | spinning w1 => rw [hwr] at h; simp at h
  | done a n1 w1 =>
    rw [hwr] at h
    simp only [Outcome.bind_done] at h
    obtain ⟨vs, x, e1, _, e3⟩ := wait_receiver_done d n w a n1 w1 hwr
    have hlt : crToLf (peek d Reg.data w1 % 256) < 256 :=
      (crToLf_bounds _ (Nat.mod_lt _ (by decide))).1
    have hfold : (if peek d Reg.data w1 % 256 = 13 then 10 else peek d Reg.data w1 % 256)
        = crToLf (peek d Reg.data w1 % 256) := rfl
    rw [hfold] at h
    cases hp : uart_putc d n1 (toChar cs ((crToLf (peek d Reg.data w1 % 256) : Nat) : Int))
      (afterRead d Reg.data w1) with
    | spinning w2 => rw [hp] at h; simp at h
    | done r2 n2 w2 =>
      rw [hp] at h
      simp only [Outcome.bind_done, Outcome.done.injEq] at h
      obtain ⟨h1, h2, h3⟩ := h
      subst h1 h2 h3
      obtain ⟨_, p2, p3, p4⟩ := uart_putc_done d n1 _ _ r2 n2 w2 hp
      refine ⟨peek d Reg.data w1, ?_, rfl, ?_, by omega⟩
      · rw [p4]; simp [e1]
      · rw [p3]
        have hiff := toChar_eq_LF cs (crToLf (peek d Reg.data w1 % 256)) hlt
        unfold echoWords
        by_cases h10 : crToLf (peek d Reg.data w1 % 256) = 10
        · rw [if_pos (hiff.2 h10), if_pos h10]; simp [e1]
        · rw [if_neg (fun e => h10 (hiff.1 e)), if_neg h10]; simp [e1]

theorem constDev_rx_full (v : Nat) (w : World Unit) :
    (peek (constDev 2 v) Reg.state w).testBit UART_STATE_RX_BF = true := by
  show Nat.testBit 2 UART_STATE_RX_BF = true
  decide

theorem constDev_tx_clear (v : Nat) (s : Unit) :
    ((constDev 2 v).read s Reg.state).1.testBit UART_STATE_TX_BF = false := by
  rw [constDev_read_state]
  decide

/-- C15: whenever `uart_getc` returns, on any hardware, it has read one word
`wd` from `data` and the integer returned is the translation of `wd` modulo
256 (13 becomes 10, any other byte is itself): it lies in 0..255, is not
negative (so never the end-of-file value -1) and is never 13.  Every word is
covered: on hardware that presents the word `v`, ready at every poll,
`uart_getc` returns the translation of `v` modulo 256. -/
theorem uart_getc_returns_low_byte {σ : Type} (cs : Bool) (d : Device σ) (n : Nat)
    (w : World σ) (r : Int) (n' : Nat) (w' : World σ)
    (h : uart_getc cs d n w = Outcome.done r n' w') :
    (∃ wd : Nat, dataReads w'.trace = dataReads w.trace ++ [wd] ∧
      r = ((crToLf (wd % 256) : Nat) : Int)) ∧
    0 ≤ r ∧ r ≤ 255 ∧ r ≠ -1 ∧ r ≠ 13 ∧
    (∀ v : Nat, (uart_getc cs (constDev 2 v) 5 ⟨(), []⟩).value
      = some ((crToLf (v % 256) : Nat) : Int)) := by
  obtain ⟨wd, h1, h2, _, _⟩ := uart_getc_done cs d n w r n' w' h
  obtain ⟨b1, b2⟩ := crToLf_bounds (wd % 256) (Nat.mod_lt _ (by decide))
  refine ⟨⟨wd, h1, h2⟩, by omega, by omega, by omega, by omega, ?_⟩
  intro v
  have hg := uart_getc_ready cs (constDev 2 v) 4 ⟨(), []⟩ (constDev_rx_full v _)
  have hpk : peek (constDev 2 v) Reg.data (afterRead (constDev 2 v) Reg.state ⟨(), []⟩)
      = v := rfl
  rw [hpk] at hg
  obtain ⟨m, u, e1, _⟩ := uart_putc_ready_echo cs (constDev 2 v) (constDev_tx_clear v) 0
    (crToLf (v % 256)) (crToLf_bounds _ (Nat.mod_lt _ (by decide))).1
    (afterRead (constDev 2 v) Reg.data (afterRead (constDev 2 v) Reg.state ⟨(), []⟩))
  rw [show (5 : Nat) = 4 + 1 from rfl, hg, show (4 : Nat) = 0 + 4 from rfl, e1]
  rfl

theorem uart_getc_returns_low_byte_witness :
    uart_getc true (constDev 2 4294967053) 5 ⟨(), []⟩ = Outcome.done 10 0
      ⟨(), [Access.read Reg.state 2, Access.read Reg.data 4294967053,
        Access.read Reg.state 2, Access.write Reg.data 13,
        Access.read Reg.state 2, Access.write Reg.data 10]⟩ ∧
    ((∃ wd : Nat, dataReads [Access.read Reg.state 2, Access.read Reg.data 4294967053,
        Access.read Reg.state 2, Access.write Reg.data 13,
        Access.read Reg.state 2, Access.write Reg.data 10] = dataReads [] ++ [wd] ∧
      (10 : Int) = ((crToLf (wd % 256) : Nat) : Int)) ∧
    (0 : Int) ≤ 10 ∧ (10 : Int) ≤ 255 ∧ (10 : Int) ≠ -1 ∧ (10 : Int) ≠ 13 ∧
    (∀ v : Nat, (uart_getc true (constDev 2 v) 5 ⟨(), []⟩).value
      = some ((crToLf (v % 256) : Nat) : Int))) :=
  ⟨rfl, uart_getc_returns_low_byte true (constDev 2 4294967053) 5 ⟨(), []⟩ 10 0
    ⟨(), [Access.read Reg.state 2, Access.read Reg.data 4294967053,
      Access.read Reg.state 2, Access.write Reg.data 13,
      Access.read Reg.state 2, Access.write Reg.data 10]⟩ rfl⟩

/-! ## Termination of `uart_putc` on hardware that becomes ready -/

@[simp] theorem stateReads_append (xs ys : List Access) :
    stateReads (xs ++ ys) = stateReads xs ++ stateReads ys := by
  simp [stateReads]

@[simp] theorem stateReads_polls (vs : List Nat) :
    stateReads (vs.map (Access.read Reg.state)) = vs := by
  induction vs with
  | nil => rfl
  | cons v rest ih =>
    simp only [List.map_cons]
    rw [show Access.read Reg.state v :: rest.map (Access.read Reg.state)
      = [Access.read Reg.state v] ++ rest.map (Access.read Reg.state) from rfl,
      stateReads_append, ih]
    rfl

@[simp] theorem stateReads_write (r : Reg) (v : Nat) :
    stateReads [Access.write r v] = [] := rfl

/-- If the transmit-buffer-full bit reads clear at the poll after `k`
earlier polls, the transmit wait returns within `k + 1` polls. -/
theorem wait_transmitter_eventually {σ : Type} (d : Device σ) :
    ∀ (k : Nat) (w : World σ),
      (d.read (afterPolls d k w.dev) Reg.state).1.testBit UART_STATE_TX_BF = false →
      ∀ m : Nat, ∃ n' w', wait_transmitter d (k + 1 + m) w = Outcome.done () n' w' ∧
        m ≤ n' := by
  intro k
  induction k with
  | zero =>
    intro w hk m
    have h0 : (peek d Reg.state w) &&& (1 <<< UART_STATE_TX_BF) = 0 :=
      (and_bit_eq_zero _ _).2 hk
    refine ⟨m, afterRead d Reg.state w, ?_, le_refl _⟩
    rw [show 0 + 1 + m = m + 1 by omega, wait_transmitter]
    simp [h0]
  | succ j ih =>
    intro w hk m
    rw [show j + 1 + 1 + m = (j + 1 + m) + 1 by omega, wait_transmitter]
    split
    · exact ih (afterRead d Reg.state w) hk m
    · exact ⟨j + 1 + m, _, rfl, by omega⟩

/-- The tail of `uart_putc` on hardware whose transmitter shows not full
within `N` polls: it returns, after at most `N` polls and one write. -/
theorem send_eventually {σ : Type} (d : Device σ) (N : Nat)
    (hN : ∀ s, ∃ k, k < N ∧
      (d.read (afterPolls d k s) Reg.state).1.testBit UART_STATE_TX_BF = false)
    (w : World σ) (r : Int) (v : Nat) (m : Nat) :
    ∃ n' w', ((wait_transmitter d (N + m) w).bind fun _ n2 w2 =>
        Outcome.done r n2 (store d Reg.data v w2)) = Outcome.done r n' w' ∧
      m ≤ n' ∧
      n' + (stateReads w'.trace).length = N + m + (stateReads w.trace).length ∧
      dataWrites w'.trace = dataWrites w.trace ++ [v] ∧
      dataReads w'.trace = dataReads w.trace := by
  obtain ⟨k, hk1, hk2⟩ := hN w.dev
  obtain ⟨n1, w1, e1, e2⟩ := wait_transmitter_eventually d k w hk2 (N + m - (k + 1))
  rw [show k + 1 + (N + m - (k + 1)) = N + m by omega] at e1
  obtain ⟨vs, s1, _, s3, _⟩ := wait_transmitter_shape d (N + m) w
  obtain ⟨s4, _⟩ := s3 () n1 w1 e1
  rw [e1] at s1
  simp only [Outcome.world] at s1
  refine ⟨n1, store d Reg.data v w1, by rw [e1]; rfl, by omega, ?_, ?_, ?_⟩
  · simp [s1]; omega
  · simp [s1]
  · simp [s1]

/-- On hardware whose transmitter shows not full within `N` polls, a call
of `uart_putc` with any argument but line-feed returns after one activation,
at most `N` polls and exactly one write to `data`. -/
theorem uart_putc_other_eventually {σ : Type} (d : Device σ) (N : Nat)
    (hN : ∀ s, ∃ k, k < N ∧
      (d.read (afterPolls d k s) Reg.state).1.testBit UART_STATE_TX_BF = false)
    (c : Int) (hc : c ≠ LF) (w : World σ) (m : Nat) :
    ∃ n' w', uart_putc d (N + 1 + m) c w = Outcome.done ((toU8 c : Nat) : Int) n' w' ∧
      m ≤ n' ∧
      n' + (stateReads w'.trace).length + 1 = N + 1 + m + (stateReads w.trace).length ∧
      dataWrites w'.trace = dataWrites w.trace ++ [toU32 c] ∧
      dataReads w'.trace = dataReads w.trace := by
  obtain ⟨n', w', h1, h2, h3, h4, h5⟩ := send_eventually d N hN w ((toU8 c : Nat) : Int)
    (toU32 c) m
  refine ⟨n', w', ?_, h2, by omega, h4, h5⟩
  rw [show N + 1 + m = (N + m) + 1 by omega, uart_putc_other d (N + m) c hc w]
  exact h1

/-- C16: if on the hardware every run of polls of `state` shows the
transmit-buffer-full bit clear within `N` polls, then for every character
`c`, `uart_putc` returns (fuel `2 * N + 2` suffices).  It is activated once,
or twice when `c` is line-feed: the inner call is made with carriage-return,
which is not line-feed, and a call with an argument other than line-feed goes
straight to the wait, without a further call; fuel being spent one unit per
activation and one per poll, the activations are the fuel spent less the
polls.  The call performs at most 2 writes to `data` and at most `2 * N`
reads of `state`. -/
theorem uart_putc_terminates {σ : Type} (d : Device σ) (N : Nat)
    (hN : ∀ s, ∃ k, k < N ∧
      (d.read (afterPolls d k s) Reg.state).1.testBit UART_STATE_TX_BF = false)
    (c : Int) (w : World σ) (m : Nat) :
    (∃ n' w', uart_putc d (2 * N + 2 + m) c w = Outcome.done ((toU8 c : Nat) : Int) n' w' ∧
      m ≤ n' ∧
      n' + (stateReads w'.trace).length + (if c = LF then 2 else 1)
        = 2 * N + 2 + m + (stateReads w.trace).length ∧
      (dataWrites w'.trace).length ≤ (dataWrites w.trace).length + 2 ∧
      (stateReads w'.trace).length ≤ (stateReads w.trace).length + 2 * N) ∧
    CR ≠ LF ∧
    (∀ (n : Nat) (u : World σ), uart_putc d (n + 1) LF u =
      (uart_putc d n CR u).bind fun _ n1 w1 =>
        (wait_transmitter d n1 w1).bind fun _ n2 w2 =>
          Outcome.done 10 n2 (store d Reg.data 10 w2)) ∧
    (∀ (n : Nat) (x : Int) (u : World σ), x ≠ LF → uart_putc d (n + 1) x u =
      (wait_transmitter d n u).bind fun _ n2 w2 =>
        Outcome.done ((toU8 x : Nat) : Int) n2 (store d Reg.data (toU32 x) w2)) := by
  refine ⟨?_, by decide, fun n u => uart_putc_lf d n u,
    fun n x u hx => uart_putc_other d n x hx u⟩
  have hpos : 0 < N := by
    obtain ⟨k, hk, _⟩ := hN w.dev
    omega
  by_cases hc : c = LF
  · subst hc
    obtain ⟨n1, w1, a1, a2, a3, a4, _⟩ :=
      uart_putc_other_eventually d N hN CR (by decide) w (N + m)
    obtain ⟨n2, w2, b1, b2, b3, b4, _⟩ := send_eventually d N hN w1 10 10 (n1 - N)
    rw [show N + (n1 - N) = n1 by omega] at b1 b3
    refine ⟨n2, w2, ?_, by omega, ?_, ?_, ?_⟩
    · rw [show 2 * N + 2 + m = (N + 1 + (N + m)) + 1 by omega, uart_putc_lf, a1]
      simp only [Outcome.bind_done]
      rw [b1, toU8_LF]
      rfl
    · rw [if_pos rfl]; omega
    · rw [b4, a4]; simp
    · omega
  · obtain ⟨n1, w1, a1, a2, a3, a4, _⟩ :=
      uart_putc_other_eventually d N hN c hc w (N + 1 + m)
    refine ⟨n1, w1, ?_, by omega, ?_, ?_, ?_⟩
    · rw [show 2 * N + 2 + m = N + 1 + (N + 1 + m) by omega]
      exact a1
    · rw [if_neg hc]; omega
    · rw [a4]; simp
    · omega

theorem uart_putc_terminates_witness :
    (∀ s, ∃ k, k < 1 ∧
      ((constDev 0 0).read (afterPolls (constDev 0 0) k s) Reg.state).1.testBit
        UART_STATE_TX_BF = false) ∧
    ((∃ n' w', uart_putc (constDev 0 0) (2 * 1 + 2 + 0) LF ⟨(), []⟩ =
        Outcome.done ((toU8 LF : Nat) : Int) n' w' ∧
      0 ≤ n' ∧
      n' + (stateReads w'.trace).length + (if LF = LF then 2 else 1)
        = 2 * 1 + 2 + 0 + (stateReads ([] : List Access)).length ∧
      (dataWrites w'.trace).length ≤ (dataWrites ([] : List Access)).length + 2 ∧
      (stateReads w'.trace).length ≤ (stateReads ([] : List Access)).length + 2 * 1) ∧
    CR ≠ LF ∧
    (∀ (n : Nat) (u : World Unit), uart_putc (constDev 0 0) (n + 1) LF u =
      (uart_putc (constDev 0 0) n CR u).bind fun _ n1 w1 =>
        (wait_transmitter (constDev 0 0) n1 w1).bind fun _ n2 w2 =>
          Outcome.done 10 n2 (store (constDev 0 0) Reg.data 10 w2)) ∧
    (∀ (n : Nat) (x : Int) (u : World Unit), x ≠ LF →
      uart_putc (constDev 0 0) (n + 1) x u =
      (wait_transmitter (constDev 0 0) n u).bind fun _ n2 w2 =>
        Outcome.done ((toU8 x : Nat) : Int) n2
          (store (constDev 0 0) Reg.data (toU32 x) w2))) :=
  ⟨fun s => ⟨0, by decide, by rw [constDev_read_state]; decide⟩,
   uart_putc_terminates (constDev 0 0) 1
     (fun s => ⟨0, by decide, by rw [constDev_read_state]; decide⟩) LF ⟨(), []⟩ 0⟩

/-! ## The word `uart_putc` stores -/

theorem toU32_low_byte (c : Int) : toU32 c % 256 = toU8 c := by
  unfold toU32 toU8
  omega

theorem toU32_eq_toU8 (cs : Bool) (c : Int) (hchar : isChar cs c)
    (h : cs = false ∨ 0 ≤ c) : toU32 c = toU8 c := by
  unfold isChar at hchar
  unfold toU32 toU8
  cases cs
  · simp at hchar; omega
  · simp at hchar h; omega

/-- C14, as stated, fails where plain `char` is signed: for the character
with all bits set (value -1), on ready hardware, `uart_putc` returns 255 and
makes one write to `data`, of the sign-extended word 4294967295, not of
the unsigned 8-bit value 255. -/
theorem uart_putc_stores_sign_extended_word :
    isChar true (-1) ∧ (-1 : Int) ≠ LF ∧
    (uart_putc (constDev 0 0) 2 (-1) ⟨(), []⟩).value = some 255 ∧
    toU8 (-1) = 255 ∧
    dataWrites (uart_putc (constDev 0 0) 2 (-1) ⟨(), []⟩).world.trace = [4294967295] ∧
    ¬ (dataWrites (uart_putc (constDev 0 0) 2 (-1) ⟨(), []⟩).world.trace
      = [toU8 (-1)]) := by
  refine ⟨by decide, by decide, by decide, by decide, by decide, by decide⟩

/-- C14, amended: for every character `c` other than line-feed, on hardware
whose transmitter shows not full within `N` polls, `uart_putc` returns
(fuel `N + 1` suffices) and performs exactly one write to `data`; the word
written is `c` converted to `uint32_t`, whose low 8 bits are the unsigned
8-bit value of `c`, the value the call returns (0..255).  When plain `char`
is unsigned, or `c` is not negative, the word written is that 8-bit value
itself, upper 24 bits zero; this covers carriage-return, written as 13, and,
where plain `char` is unsigned, the characters with the high bit set. -/
theorem uart_putc_writes_one_word {σ : Type} (cs : Bool) (d : Device σ) (N : Nat)
    (hN : ∀ s, ∃ k, k < N ∧
      (d.read (afterPolls d k s) Reg.state).1.testBit UART_STATE_TX_BF = false)
    (c : Int) (hchar : isChar cs c) (hc : c ≠ LF) (w : World σ) (m : Nat) :
    (∃ n' w', uart_putc d (N + 1 + m) c w = Outcome.done ((toU8 c : Nat) : Int) n' w' ∧
      dataWrites w'.trace = dataWrites w.trace ++ [toU32 c] ∧
      dataReads w'.trace = dataReads w.trace) ∧
    toU32 c % 256 = toU8 c ∧ toU8 c ≤ 255 ∧
    ((cs = false ∨ 0 ≤ c) → toU32 c = toU8 c ∧ toU32 c ≤ 255) ∧
    toU32 CR = 13 ∧ toU8 CR = 13 := by
  obtain ⟨n', w', h1, _, _, h4, h5⟩ := uart_putc_other_eventually d N hN c hc w m
  have hle : toU8 c ≤ 255 := by unfold toU8; omega
  refine ⟨⟨n', w', h1, h4, h5⟩, toU32_low_byte c, hle, ?_, by decide, by decide⟩
  intro h
  have := toU32_eq_toU8 cs c hchar h
  exact ⟨this, by omega⟩

theorem uart_putc_writes_one_word_witness :
    (∀ s, ∃ k, k < 1 ∧
      ((constDev 0 0).read (afterPolls (constDev 0 0) k s) Reg.state).1.testBit
        UART_STATE_TX_BF = false) ∧
    isChar false 200 ∧ (200 : Int) ≠ LF ∧
    ((∃ n' w', uart_putc (constDev 0 0) (1 + 1 + 0) 200 ⟨(), []⟩ =
        Outcome.done ((toU8 200 : Nat) : Int) n' w' ∧
      dataWrites w'.trace = dataWrites ([] : List Access) ++ [toU32 200] ∧
      dataReads w'.trace = dataReads ([] : List Access)) ∧
    toU32 200 % 256 = toU8 200 ∧ toU8 200 ≤ 255 ∧
    ((false = false ∨ (0 : Int) ≤ 200) → toU32 200 = toU8 200 ∧ toU32 200 ≤ 255) ∧
    toU32 CR = 13 ∧ toU8 CR = 13) :=
  ⟨fun s => ⟨0, by decide, by rw [constDev_read_state]; decide⟩, by decide, by decide,
   uart_putc_writes_one_word false (constDev 0 0) 1
     (fun s => ⟨0, by decide, by rw [constDev_read_state]; decide⟩) 200 (by decide)
     (by decide) ⟨(), []⟩ 0⟩

/-! ## Status bits the driver does not look at -/

@[simp] theorem dataAccesses_append (xs ys : List Access) :
    dataAccesses (xs ++ ys) = dataAccesses xs ++ dataAccesses ys := by
  simp [dataAccesses]

@[simp] theorem dataAccesses_read_state (v : Nat) :
    dataAccesses [Access.read Reg.state v] = [] := rfl

@[simp] theorem dataAccesses_read_data (v : Nat) :
    dataAccesses [Access.read Reg.data v] = [Access.read Reg.data v] := rfl

@[simp] theorem dataAccesses_write_data (v : Nat) :
    dataAccesses [Access.write Reg.data v] = [Access.write Reg.data v] := rfl

theorem OutcomesAgree.bind {α β σ τ : Type} (R : σ → τ → Prop)
    (o : Outcome α σ) (p : Outcome α τ)
    (f : α → Nat → World σ → Outcome β σ) (g : α → Nat → World τ → Outcome β τ)
    (h : OutcomesAgree R o p)
    (hfg : ∀ a n w u, WorldsAgree R w u → OutcomesAgree R (f a n w) (g a n u)) :
    OutcomesAgree R (o.bind f) (p.bind g) := by
  cases o with
  | done a n w =>
    cases p with
    | done b m u =>
      obtain ⟨h1, h2, h3⟩ := h
      subst h1 h2
      exact hfg _ _ _ _ h3
    | spinning u => exact h.elim
  | spinning w =>
    cases p with
    | done b m u => exact h.elim
    | spinning u => exact h

theorem OutcomesAgree.value_world {α σ τ : Type} (R : σ → τ → Prop)
    (o : Outcome α σ) (p : Outcome α τ) (h : OutcomesAgree R o p) :
    o.value = p.value ∧ dataAccesses o.world.trace = dataAccesses p.world.trace := by
  cases o with
  | done a n w =>
    cases p with
    | done b m u =>
      obtain ⟨h1, _, _, h4⟩ := h
      subst h1
      exact ⟨rfl, h4⟩
    | spinning u => exact h.elim
  | spinning w =>
    cases p with
    | done b m u => exact h.elim
    | spinning u => exact ⟨rfl, h.2⟩

theorem afterRead_state_agree {σ τ : Type} (d1 : Device σ) (d2 : Device τ)
    (R : σ → τ → Prop)
    (hstate : ∀ s t, R s t → R (d1.read s Reg.state).2 (d2.read t Reg.state).2)
    (w : World σ) (u : World τ) (h : WorldsAgree R w u) :
    WorldsAgree R (afterRead d1 Reg.state w) (afterRead d2 Reg.state u) :=
  ⟨hstate _ _ h.1, by simp [h.2]⟩

theorem wait_transmitter_agree {σ τ : Type} (d1 : Device σ) (d2 : Device τ)
    (R : σ → τ → Prop)
    (hbit : ∀ s t, R s t → (d1.read s Reg.state).1.testBit UART_STATE_TX_BF
      = (d2.read t Reg.state).1.testBit UART_STATE_TX_BF)
    (hstate : ∀ s t, R s t → R (d1.read s Reg.state).2 (d2.read t Reg.state).2) :
    ∀ (n : Nat) (w : World σ) (u : World τ), WorldsAgree R w u →
      OutcomesAgree R (wait_transmitter d1 n w) (wait_transmitter d2 n u) := by
  intro n
  induction n with
  | zero => intro w u h; exact h
  | succ k ih =>
    intro w u h
    have hb := hbit _ _ h.1
    have hnext := afterRead_state_agree d1 d2 R hstate w u h
    by_cases h1 : (peek d1 Reg.state w) &&& (1 <<< UART_STATE_TX_BF) ≠ 0
    · have h2 : (peek d2 Reg.state u) &&& (1 <<< UART_STATE_TX_BF) ≠ 0 := by
        rw [and_bit_ne_zero] at h1 ⊢
        unfold peek at h1 ⊢
        rw [← hb]; exact h1
      rw [wait_transmitter, wait_transmitter, if_pos h1, if_pos h2]
      exact ih _ _ hnext
    · have h2 : ¬ ((peek d2 Reg.state u) &&& (1 <<< UART_STATE_TX_BF) ≠ 0) := by
        rw [and_bit_ne_zero] at h1 ⊢
        unfold peek at h1 ⊢
        rw [← hb]; exact h1
      rw [wait_transmitter, wait_transmitter, if_neg h1, if_neg h2]
      exact ⟨rfl, rfl, hnext⟩

theorem wait_receiver_agree {σ τ : Type} (d1 : Device σ) (d2 : Device τ)
    (R : σ → τ → Prop)
    (hbit : ∀ s t, R s t → (d1.read s Reg.state).1.testBit UART_STATE_RX_BF
      = (d2.read t Reg.state).1.testBit UART_STATE_RX_BF)
    (hstate : ∀ s t, R s t → R (d1.read s Reg.state).2 (d2.read t Reg.state).2) :
    ∀ (n : Nat) (w : World σ) (u : World τ), WorldsAgree R w u →
      OutcomesAgree R (wait_receiver d1 n w) (wait_receiver d2 n u) := by
  intro n
  induction n with
  | zero => intro w u h; exact h
  | succ k ih =>
    intro w u h
    have hb := hbit _ _ h.1
    have hnext := afterRead_state_agree d1 d2 R hstate w u h
    by_cases h1 : (peek d1 Reg.state w) &&& (1 <<< UART_STATE_RX_BF) = 0
    · have h2 : (peek d2 Reg.state u) &&& (1 <<< UART_STATE_RX_BF) = 0 := by
        rw [and_bit_eq_zero] at h1 ⊢
        unfold peek at h1 ⊢
        rw [← hb]; exact h1
      rw [wait_receiver, wait_receiver, if_pos h1, if_pos h2]
      exact ih _ _ hnext
    · have h2 : ¬ ((peek d2 Reg.state u) &&& (1 <<< UART_STATE_RX_BF) = 0) := by
        rw [and_bit_eq_zero] at h1 ⊢
        unfold peek at h1 ⊢
        rw [← hb]; exact h1
      rw [wait_receiver, wait_receiver, if_neg h1, if_neg h2]
      exact ⟨rfl, rfl, hnext⟩

theorem send_agree {σ τ : Type} (d1 : Device σ) (d2 : Device τ) (R : σ → τ → Prop)
    (hbit : ∀ s t, R s t → (d1.read s Reg.state).1.testBit UART_STATE_TX_BF
      = (d2.read t Reg.state).1.testBit UART_STATE_TX_BF)
    (hstate : ∀ s t, R s t → R (d1.read s Reg.state).2 (d2.read t Reg.state).2)
    (hwrite : ∀ s t v, R s t → R (d1.write s Reg.data v) (d2.write t Reg.data v))
    (n : Nat) (w : World σ) (u : World τ) (r : Int) (v : Nat) (h : WorldsAgree R w u) :
    OutcomesAgree R
      ((wait_transmitter d1 n w).bind fun _ n2 w2 =>
        Outcome.done r n2 (store d1 Reg.data v w2))
      ((wait_transmitter d2 n u).bind fun _ n2 w2 =>
        Outcome.done r n2 (store d2 Reg.data v w2)) := by
  refine OutcomesAgree.bind R _ _ _ _ (wait_transmitter_agree d1 d2 R hbit hstate n w u h) ?_
  intro a k w1 u1 h1
  exact ⟨rfl, rfl, hwrite _ _ v h1.1, by simp [h1.2]⟩

theorem uart_putc_agree {σ τ : Type} (d1 : Device σ) (d2 : Device τ) (R : σ → τ → Prop)
    (hbit : ∀ s t, R s t → (d1.read s Reg.state).1.testBit UART_STATE_TX_BF
      = (d2.read t Reg.state).1.testBit UART_STATE_TX_BF)
    (hstate : ∀ s t, R s t → R (d1.read s Reg.state).2 (d2.read t Reg.state).2)
    (hwrite : ∀ s t v, R s t → R (d1.write s Reg.data v) (d2.write t Reg.data v))
    (n : Nat) (c : Int) (w : World σ) (u : World τ) (h : WorldsAgree R w u) :
    OutcomesAgree R (uart_putc d1 n c w) (uart_putc d2 n c u) := by
  have hother : ∀ (m : Nat) (x : Int) (w0 : World σ) (u0 : World τ), x ≠ LF →
      WorldsAgree R w0 u0 → OutcomesAgree R (uart_putc d1 m x w0) (uart_putc d2 m x u0) := by
    intro m x w0 u0 hx h0
    cases m with
    | zero => exact h0
    | succ k =>
      rw [uart_putc_other d1 k x hx, uart_putc_other d2 k x hx]
      exact send_agree d1 d2 R hbit hstate hwrite k w0 u0 _ _ h0
  by_cases hc : c = LF
  · subst hc
    cases n with
    | zero => exact h
    | succ k =>
      rw [uart_putc_lf, uart_putc_lf]
      refine OutcomesAgree.bind R _ _ _ _ (hother k CR w u (by decide) h) ?_
      intro a m w1 u1 h1
      exact send_agree d1 d2 R hbit hstate hwrite m w1 u1 _ _ h1
  · exact hother n c w u hc h

theorem uart_getc_agree {σ τ : Type} (cs : Bool) (d1 : Device σ) (d2 : Device τ)
    (R : σ → τ → Prop)
    (hbit0 : ∀ s t, R s t → (d1.read s Reg.state).1.testBit UART_STATE_TX_BF
      = (d2.read t Reg.state).1.testBit UART_STATE_TX_BF)
    (hbit1 : ∀ s t, R s t → (d1.read s Reg.state).1.testBit UART_STATE_RX_BF
      = (d2.read t Reg.state).1.testBit UART_STATE_RX_BF)
    (hstate : ∀ s t, R s t → R (d1.read s Reg.state).2 (d2.read t Reg.state).2)
    (hdata : ∀ s t, R s t → (d1.read s Reg.data).1 = (d2.read t Reg.data).1 ∧
      R (d1.read s Reg.data).2 (d2.read t Reg.data).2)
    (hwrite : ∀ s t v, R s t → R (d1.write s Reg.data v) (d2.write t Reg.data v))
    (n : Nat) (w : World σ) (u : World τ) (h : WorldsAgree R w u) :
    OutcomesAgree R (uart_getc cs d1 n w) (uart_getc cs d2 n u) := by
  unfold uart_getc
  refine OutcomesAgree.bind R _ _ _ _ (wait_receiver_agree d1 d2 R hbit1 hstate n w u h) ?_
  intro a k w1 u1 h1
  have hpk : peek d1 Reg.data w1 = peek d2 Reg.data u1 := (hdata _ _ h1.1).1
  have hrd : WorldsAgree R (afterRead d1 Reg.data w1) (afterRead d2 Reg.data u1) :=
    ⟨(hdata _ _ h1.1).2, by simp [h1.2, hpk]⟩
  simp only [hpk]
  refine OutcomesAgree.bind R _ _ _ _
    (uart_putc_agree d1 d2 R hbit0 hstate hwrite k _ _ _ hrd) ?_
  intro b m w2 u2 h2
  exact ⟨rfl, rfl, h2⟩

/-- C12: the overflow bits, and every `state` bit above bit 1, are never
inspected.  Take two pieces of hardware and a relation `R` between their
states, kept by every access the driver makes, such that in related states
the `state` words agree on bit 0 (transmit-buffer-full) and on bit 1
(receive-buffer-full), whatever their other bits, and the `data` words are
equal.  Started in related states with the same fuel, `uart_putc` on the one
and on the other, and likewise `uart_getc`, both return or both are still
running, return the same value, and have made the same sequence of reads and
writes of `data`. -/
theorem overflow_bits_never_inspected {σ τ : Type} (cs : Bool) (d1 : Device σ)
    (d2 : Device τ) (R : σ → τ → Prop)
    (hbits : ∀ s t, R s t →
      (d1.read s Reg.state).1.testBit UART_STATE_TX_BF
        = (d2.read t Reg.state).1.testBit UART_STATE_TX_BF ∧
      (d1.read s Reg.state).1.testBit UART_STATE_RX_BF
        = (d2.read t Reg.state).1.testBit UART_STATE_RX_BF ∧
      R (d1.read s Reg.state).2 (d2.read t Reg.state).2)
    (hdata : ∀ s t, R s t → (d1.read s Reg.data).1 = (d2.read t Reg.data).1 ∧
      R (d1.read s Reg.data).2 (d2.read t Reg.data).2)
    (hwrite : ∀ s t v, R s t → R (d1.write s Reg.data v) (d2.write t Reg.data v))
    (s : σ) (t : τ) (hR : R s t) (n : Nat) (c : Int) :
    ((uart_putc d1 n c ⟨s, []⟩).value = (uart_putc d2 n c ⟨t, []⟩).value ∧
      dataAccesses (uart_putc d1 n c ⟨s, []⟩).world.trace
        = dataAccesses (uart_putc d2 n c ⟨t, []⟩).world.trace) ∧
    ((uart_getc cs d1 n ⟨s, []⟩).value = (uart_getc cs d2 n ⟨t, []⟩).value ∧
      dataAccesses (uart_getc cs d1 n ⟨s, []⟩).world.trace
        = dataAccesses (uart_getc cs d2 n ⟨t, []⟩).world.trace) := by
  have h0 : WorldsAgree R (⟨s, []⟩ : World σ) (⟨t, []⟩ : World τ) := ⟨hR, rfl⟩
  exact ⟨OutcomesAgree.value_world R _ _
      (uart_putc_agree d1 d2 R (fun a b h => (hbits a b h).1)
        (fun a b h => (hbits a b h).2.2) hwrite n c _ _ h0),
    OutcomesAgree.value_world R _ _
      (uart_getc_agree cs d1 d2 R (fun a b h => (hbits a b h).1)
        (fun a b h => (hbits a b h).2.1) (fun a b h => (hbits a b h).2.2)
        hdata hwrite n _ _ h0)⟩

theorem overflow_bits_never_inspected_witness :
    (∀ s t : Unit, True →
      ((constDev 2 65).read s Reg.state).1.testBit UART_STATE_TX_BF
        = ((constDev 14 65).read t Reg.state).1.testBit UART_STATE_TX_BF ∧
      ((constDev 2 65).read s Reg.state).1.testBit UART_STATE_RX_BF
        = ((constDev 14 65).read t Reg.state).1.testBit UART_STATE_RX_BF ∧
      True) ∧
    (∀ s t : Unit, True →
      ((constDev 2 65).read s Reg.data).1 = ((constDev 14 65).read t Reg.data).1 ∧ True) ∧
    ((constDev 2 65).read () Reg.state).1 ≠ ((constDev 14 65).read () Reg.state).1 ∧
    (((uart_putc (constDev 2 65) 4 LF ⟨(), []⟩).value
        = (uart_putc (constDev 14 65) 4 LF ⟨(), []⟩).value ∧
      dataAccesses (uart_putc (constDev 2 65) 4 LF ⟨(), []⟩).world.trace
        = dataAccesses (uart_putc (constDev 14 65) 4 LF ⟨(), []⟩).world.trace) ∧
    ((uart_getc false (constDev 2 65) 4 ⟨(), []⟩).value
        = (uart_getc false (constDev 14 65) 4 ⟨(), []⟩).value ∧
      dataAccesses (uart_getc false (constDev 2 65) 4 ⟨(), []⟩).world.trace
        = dataAccesses (uart_getc false (constDev 14 65) 4 ⟨(), []⟩).world.trace)) :=
  ⟨fun s t _ => ⟨by rw [constDev_read_state, constDev_read_state]; decide,
      by rw [constDev_read_state, constDev_read_state]; decide, trivial⟩,
   fun _ _ _ => ⟨rfl, trivial⟩,
   by decide,
   overflow_bits_never_inspected false (constDev 2 65) (constDev 14 65) (fun _ _ => True)
     (fun s t _ => ⟨by rw [constDev_read_state, constDev_read_state]; decide,
       by rw [constDev_read_state, constDev_read_state]; decide, trivial⟩)
     (fun _ _ _ => ⟨rfl, trivial⟩) (fun _ _ _ _ => trivial) () () trivial 4 LF⟩

end SimpleMps
